import Mathlib

/-!
Shallow embedding of the two config generators of `emily_olfactometer_configs`:
`simple_pairs.py` (the concentration-ramp pair scheduler) and
`basic_plus_co2.py` (the odor panel scheduler), together with proofs of the
specification claims about them.

Python dicts are modelled as insertion-ordered association lists with
last-write-wins update-in-place semantics (`dictInsert` / `dictOfList`).
Fallible code (Python `assert` / `KeyError` / `IndexError` /
`NotImplementedError`) is modelled with `Option`: `none` is a fatal abort
producing no output.  Concentrations (`log10_conc` values) are modelled as
`Option ℚ`, `none` standing for YAML `null` (Python `None`).
-/

namespace OlfConfig

/-- A `log10` concentration: `none` models a YAML `null` (blank/solvent). -/
abbrev Conc := Option ℚ

/-- An odor-vial descriptor as stored in `pins2odors`:
a Python dict of the shape `\x7b'name': ..., 'log10_conc': ...\x7d`. -/
structure Vial where
  name : String
  log10_conc : Conc
deriving DecidableEq, Repr

/-! ### Python dict semantics (insertion-ordered association lists) -/

/-- Keys of an association list. -/
def keysOf {α β : Type} (d : List (α × β)) : List α := d.map Prod.fst

/-- `d[k] = v` on a Python dict: update in place if `k` is already a key
(keeping its position), otherwise append the new binding. -/
def dictInsert {α β : Type} [DecidableEq α] (d : List (α × β)) (k : α) (v : β) :
    List (α × β) :=
  if k ∈ keysOf d then d.map (fun kv => if kv.1 = k then (k, v) else kv)
  else d ++ [(k, v)]

/-- Building a dict from a list of key/value pairs (e.g. a Python dict
comprehension over a `zip`): successive `dictInsert`s, so a repeated key
keeps its first position but its last value. -/
def dictOfList {α β : Type} [DecidableEq α] (l : List (α × β)) : List (α × β) :=
  l.foldl (fun d kv => dictInsert d kv.1 kv.2) []

/-- Python dict lookup `d[k]` (the unique binding of `k`, if any). -/
def alookup {α β : Type} [DecidableEq α] (k : α) : List (α × β) → Option β
  | [] => none
  | kv :: rest => if kv.1 = k then some kv.2 else alookup k rest

/-! ### Ordering of concentrations

`simple_pairs.py` sorts each ramp with
`sorted(..., key=conc_sort_key)` where `conc_sort_key` maps `None` to
`float('-inf')`, i.e. a null concentration sorts strictly below every
number.  Ties are identical values, so any stable comparison sort agrees
with Python's `sorted`; we use `List.insertionSort`. -/

/-- The order used by `conc_sort_key`: `none` (mapped to `-inf` in the
source) is below everything; numbers compare as usual. -/
def concLE : Conc → Conc → Prop
  | none, _ => True
  | some _, none => False
  | some a, some b => a ≤ b

instance decConcLE : DecidableRel concLE := fun a b =>
  match a, b with
  | none, _ => isTrue True.intro
  | some _, none => isFalse (fun h => h)
  | some x, some y => inferInstanceAs (Decidable (x ≤ y))

instance : IsTotal Conc concLE :=
  ⟨by
    intro a b
    cases a with
    | none => exact Or.inl True.intro
    | some x =>
      cases b with
      | none => exact Or.inr True.intro
      | some y => exact le_total x y⟩

instance : IsTrans Conc concLE :=
  ⟨by
    intro a b c hab hbc
    cases a with
    | none => exact True.intro
    | some x =>
      cases b with
      | none => exact absurd hab id
      | some y =>
        cases c with
        | none => exact absurd hbc id
        | some z => exact le_trans (α := ℚ) hab hbc⟩

/-- `sorted(concs, key=conc_sort_key)` from `simple_pairs.py`. -/
def sortConcs (l : List Conc) : List Conc := l.insertionSort concLE

/-! ### The concentration-ramp pair scheduler (`simple_pairs.py`) -/

/-- One odor stream of a pair: a name and its ramp of concentrations
(`log10_concentrations` in the YAML). -/
structure PairOdor where
  name : String
  log10_concentrations : List Conc
deriving DecidableEq, Repr

/-- The input consumed by `simple_pairs.make_config_dict`.  The three
outputs of the external collaborator `common.get_available_pins`
(`available_valve_pins` is unused by this generator) are supplied as the
fields `single_manifold` and `pins2balances`.  `co2_pin` is `none` when the
YAML has no `co2_pin` key (so accessing it is a fatal `KeyError`). -/
structure PairInput where
  n_repeats : ℕ
  odor_pairs : List (PairOdor × PairOdor)
  available_group1_valve_pins : List ℕ
  available_group2_valve_pins : List ℕ
  group1_balance_pin : ℕ
  group2_balance_pin : ℕ
  co2_pin : Option ℕ
  single_manifold : Bool
  pins2balances : List (ℕ × ℕ)
deriving Repr

/-- The parts of one generated per-pair config that this generator
computes: the `pins2odors` record and `pinlist_at_each_trial`. -/
structure PairConfig where
  pins2odors : List (ℕ × Vial)
  pinlist_at_each_trial : List (List ℕ)
deriving DecidableEq, Repr

/-- The dict `odor_name2log10_concs = \x7bodor1_name: ..., odor2_name: ...\x7d`
(looked up only after `assert odor1_name != odor2_name`; a dict literal
lets the later key win, hence `o2` is tested first). -/
def odor_name2log10_concs (o1 o2 : PairOdor) (n : String) : List Conc :=
  if n = o2.name then o2.log10_concentrations
  else if n = o1.name then o1.log10_concentrations
  else []

/-- One iteration of the vial-synthesis loop of `simple_pairs.py`
(lines 90-107) for stream `n` drawing on pool `pool`: a `CO2` stream is
skipped (`continue`); otherwise `assert len(pool) >= n_concentrations + 1`,
one vial per ramp concentration, pins taken as `pool[:len(group_vials)]`
(first-available, in pool order — the random sampling is commented out in
the source). -/
def streamSynth (o1 o2 : PairOdor) (n : String) (pool : List ℕ) :
    Option (List Vial × List ℕ) :=
  if n = "CO2" then some ([], [])
  else
    let concs := odor_name2log10_concs o1 o2 n
    if concs.length + 1 ≤ pool.length then
      some (concs.map (fun c => ⟨n, c⟩), pool.take concs.length)
    else none

/-- The whole vial-synthesis loop: stream 1 on the group-1 pool, then
stream 2 on the group-2 pool, concatenating `odor_vials` and `odor_pins`. -/
def pairVialsAndPins (inp : PairInput) (o1 o2 : PairOdor) :
    Option (List Vial × List ℕ) :=
  match streamSynth o1 o2 o1.name inp.available_group1_valve_pins with
  | none => none
  | some (v1, p1) =>
    match streamSynth o1 o2 o2.name inp.available_group2_valve_pins with
    | none => none
    | some (v2, p2) => some (v1 ++ v2, p1 ++ p2)

/-- The `'air for co2 compensation'` entry of `simple_pairs.py`. -/
def airCO2Vial : Vial := ⟨"air for co2 compensation", some 0⟩

/-- Build `pins2odors` for one pair (lines 111-125), returning also the
`co2_air_compensation_pin` when a CO2 stream is present.  Note on line 122:
`available_group_valve_pins` there is the leaked loop variable of the
`for ... in zip(...)` loop, whose value after the loop is always the
group-2 pool (the second element of the zip), regardless of which stream
is the CO2 one; `[-1]` on an empty list is a fatal `IndexError`. -/
def pairPins2Odors (inp : PairInput) (o1 o2 : PairOdor) :
    Option (List (ℕ × Vial) × Option ℕ) :=
  match pairVialsAndPins inp o1 o2 with
  | none => none
  | some (vials, pins) =>
    let d0 := dictOfList (pins.zip vials)
    if o1.name = "CO2" ∨ o2.name = "CO2" then
      match odor_name2log10_concs o1 o2 "CO2" with
      | [co2_conc] =>
        match inp.co2_pin with
        | some co2pin =>
          let d1 := dictInsert d0 co2pin ⟨"CO2", co2_conc⟩
          match inp.available_group2_valve_pins.getLast? with
          | some comp => some (dictInsert d1 comp airCO2Vial, some comp)
          | none => none
        | none => none
      | _ => none
    else some (d0, none)

/-- The canonical vial identity used as key of the reverse lookup
`vials2pins`: `tuple(vial_dict.items())` — either the one-key
`\x7b'name': 'solvent'\x7d` dict or a two-key name/concentration dict. -/
inductive VialKey where
  | solvent
  | named (name : String) (log10_conc : Conc)
deriving DecidableEq, Repr

/-- The key `tuple(o.items())` of a `pins2odors` entry. -/
def vialKey (o : Vial) : VialKey := VialKey.named o.name o.log10_conc

/-- `vials2pins = \x7btuple(o.items()): p for p, o in pins2odors.items()\x7d`. -/
def vials2pins (p2o : List (ℕ × Vial)) : List (VialKey × ℕ) :=
  dictOfList (p2o.map (fun kv => (vialKey kv.2, kv.1)))

/-- `get_vial_tuple` from `simple_pairs.py` (lines 133-141): the shared
`solvent` identity in the single-manifold null-concentration case,
otherwise the name/concentration identity (its `assert` always passes:
in the `else` branch the concentration is either a number or `None` with
`single_manifold` false). -/
def get_vial_tuple (single_manifold : Bool) (name : String) (log10_conc : Conc) :
    VialKey :=
  if single_manifold ∧ log10_conc = none then VialKey.solvent
  else VialKey.named name log10_conc

/-- The body of the innermost loop (lines 175-210) for one `(c1, c2)`
combination: the two reverse lookups (a miss is a fatal `KeyError`),
`pins = sorted(\x7bp1, p2\x7d)`, the dual-manifold length-2 assert plus both
balance pins, and the CO2 compensation pin.  `compPin` is `some` exactly
when a CO2 stream is present (it is the `co2_air_compensation_pin` local,
which in Python would be an unbound name otherwise). -/
def trial_pins_for (inp : PairInput) (v2p : List (VialKey × ℕ))
    (compPin : Option ℕ) (n1 n2 : String) (c1 c2 : Conc) : Option (List ℕ) :=
  match alookup (get_vial_tuple inp.single_manifold n1 c1) v2p with
  | none => none
  | some p1 =>
    match alookup (get_vial_tuple inp.single_manifold n2 c2) v2p with
    | none => none
    | some p2 =>
      let pins0 := if p1 = p2 then [p1]
        else if p1 ≤ p2 then [p1, p2] else [p2, p1]
      let fin : List ℕ → Option (List ℕ) := fun pins1 =>
        if n1 = "CO2" ∨ n2 = "CO2" then
          match compPin with
          | some cp => some (pins1 ++ [cp])
          | none => none
        else some pins1
      if inp.single_manifold then fin pins0
      else if pins0.length = 2 then
        fin (pins0 ++ [inp.group1_balance_pin, inp.group2_balance_pin])
      else none

/-- The trial-order skeleton: the full cross product of the two sorted
ramps, stream 1 in the outer loop (lines 175-176). -/
def pairCombos (o1 o2 : PairOdor) : List (Conc × Conc) :=
  (sortConcs o1.log10_concentrations).flatMap (fun c1 =>
    (sortConcs o2.log10_concentrations).map (fun c2 => (c1, c2)))

/-- Sequential fallible map (the loop aborts the whole generation at the
first failure). -/
def seqMap {α β : Type} (f : α → Option β) : List α → Option (List β)
  | [] => some []
  | x :: xs =>
    match f x, seqMap f xs with
    | some y, some ys => some (y :: ys)
    | _, _ => none

/-- Process one odor pair (the body of the `for pair in odor_pairs` loop):
`assert odor1_name != odor2_name`, vial synthesis and `pins2odors`
construction, then the nested cross-product loop, each combination
emitted `n_repeats` consecutive times. -/
def processPair (inp : PairInput) (o1 o2 : PairOdor) : Option PairConfig :=
  if o1.name = o2.name then none
  else
    match pairPins2Odors inp o1 o2 with
    | none => none
    | some (p2o, compPin) =>
      match seqMap
          (fun cc => trial_pins_for inp (vials2pins p2o) compPin o1.name o2.name cc.1 cc.2)
          (pairCombos o1 o2) with
      | none => none
      | some trials =>
        some ⟨p2o, trials.flatMap (fun pl => List.replicate inp.n_repeats pl)⟩

namespace simple_pairs

/-- `simple_pairs.make_config_dict`: `assert not single_manifold`,
`assert len(set(pins2balances.values())) == 2`, then one generated config
per odor pair (any per-pair failure aborts the whole call). -/
def make_config_dict (inp : PairInput) : Option (List PairConfig) :=
  if inp.single_manifold then none
  else if (inp.pins2balances.map Prod.snd).dedup.length = 2 then
    seqMap (fun pr => processPair inp pr.1 pr.2) inp.odor_pairs
  else none

end simple_pairs

/-! ### The odor panel scheduler (`basic_plus_co2.py`) -/

/-- A Python/YAML scalar as it can appear under the
`randomize_presentation_order` key.  Python's `in (True, False)` test uses
`==`, under which `1 == True` and `0 == False`. -/
inductive PyVal where
  | bool (b : Bool)
  | int (n : ℤ)
  | str (s : String)
deriving DecidableEq, Repr

/-- Python `v == b` for a scalar `v` against a bool `b`. -/
def pyEqBool : PyVal → Bool → Bool
  | PyVal.bool x, b => x == b
  | PyVal.int n, b => n == (if b then 1 else 0)
  | PyVal.str _, _ => false

/-- Python truthiness of a scalar. -/
def pyTruthy : PyVal → Bool
  | PyVal.bool b => b
  | PyVal.int n => !(n == 0)
  | PyVal.str s => !(s == "")

/-- Whether the scalar is an actual Python `bool`. -/
def isBoolVal : PyVal → Bool
  | PyVal.bool _ => true
  | _ => false

/-- The input consumed by `basic_plus_co2.make_config_dict`.  `odors` is the
YAML odor list (each element must carry a `name`); `pins2balances` is the
output of the external `common.get_available_pins`; optional YAML keys are
`Option` fields. -/
structure PanelInput where
  odors : List Vial
  available_valve_pins : List ℕ
  pins2balances : List (ℕ × ℕ)
  randomize_presentation_order : Option PyVal
  n_repeats : Option ℕ
  co2_pin : Option ℕ
deriving Repr

/-- The parts of the generated config that this generator computes, plus
the advisory warnings it emits on the way. -/
structure PanelConfig where
  pins2odors : List (ℕ × Vial)
  pinlist_at_each_trial : List (List ℕ)
  warnings : List String
deriving DecidableEq, Repr

/-- The advisory emitted when `randomize_presentation_order` is left
unspecified with more than one odor. -/
def warnDefaultRandomize : String :=
  "defaulting to randomize_presentation_order=True, since not specified in config"

/-- The advisory emitted when `n_repeats` is combined with randomization. -/
def warnRepeatsTogether : String :=
  "current implementation only randomizes across odors, keeping presentations of any given odor together"

/-- Resolution of `randomize_presentation_order` (lines 102-114): if the
key is present its value must pass `assert v in (True, False)` and is then
used for its truth value; if absent, default to `True` with an advisory
when more than one odor is present, else `assert len(odors) == 1` and
default to `False`. -/
def resolveRandomize (odors : List Vial) (rkey : Option PyVal) :
    Option (Bool × List String) :=
  match rkey with
  | some v =>
    if pyEqBool v true || pyEqBool v false then some (pyTruthy v, []) else none
  | none =>
    if 1 < odors.length then some (true, [warnDefaultRandomize])
    else if odors.length = 1 then some (false, [])
    else none

/-- Resolution of `n_repeats` (lines 116-124): default 1; an advisory when
the key is present and randomization is on. -/
def resolveRepeats (nrep : Option ℕ) (randomize : Bool) : ℕ × List String :=
  match nrep with
  | some n => (n, if randomize then [warnRepeatsTogether] else [])
  | none => (1, [])

/-- Modelled from the spec: `common.add_balance_pins` (an external
collaborator of this repository, not under its sources) "merges in
hardware balance-pin bookkeeping": each trial's pin list is extended with
the balance pin of each manifold hosting one of its pins. -/
def add_balance_pins (trial_pinlists : List (List ℕ)) (pins2balances : List (ℕ × ℕ)) :
    List (List ℕ) :=
  trial_pinlists.map (fun pl => pl ++ (pl.filterMap (fun p => alookup p pins2balances)).dedup)

/-- The `'air for co2-mixture compensation'` entry of `basic_plus_co2.py`. -/
def airCO2MixVial : Vial := ⟨"air for co2-mixture compensation", some 0⟩

/-- CO2 rewiring (lines 138-162): if any odor is named `CO2`, require the
`co2_pin` key (`KeyError` otherwise), reject more than one CO2 odor
(`NotImplementedError`), find the single pin currently assigned to the CO2
odor, relabel it as compensation air, map the CO2 pin to the CO2 odor,
`assert` the CO2 pin occurs in no trial, and append the CO2 pin to every
trial containing the former CO2-assignment pin. -/
def panelCO2Rewire (inp : PanelInput) (p2o : List (ℕ × Vial))
    (pinlist : List (List ℕ)) : Option (List (ℕ × Vial) × List (List ℕ)) :=
  match inp.odors.filter (fun o => o.name = "CO2"), inp.co2_pin with
  | [], _ => some (p2o, pinlist)
  | [co2_odor], some co2pin =>
    match (p2o.filter (fun kv => kv.2.name = "CO2")).map Prod.fst with
    | [curr] =>
      let d := dictInsert (dictInsert p2o curr airCO2MixVial) co2pin co2_odor
      if pinlist.any (fun pl => co2pin ∈ pl) then none
      else some (d, pinlist.map (fun pl => if curr ∈ pl then pl ++ [co2pin] else pl))
    | _ => none
  | _, _ => none

namespace basic_plus_co2

/-- `basic_plus_co2.make_config_dict`.  The two consumptions of the shared
pseudo-random source — `random.sample` for the pin draw and
`random.shuffle` for the order — are abstracted as the function parameters
`sample` and `shuffle` (theorems constrain them to behave as the stdlib
does: `sample pool n` is an `n`-element selection from `pool`, `shuffle l`
a permutation of `l`). -/
def make_config_dict (sample : List ℕ → ℕ → List ℕ) (shuffle : List ℕ → List ℕ)
    (inp : PanelInput) : Option PanelConfig :=
  if inp.odors.length ≤ inp.available_valve_pins.length then
    let odor_pins := sample inp.available_valve_pins inp.odors.length
    let pins2odors := dictOfList (odor_pins.zip inp.odors)
    match resolveRandomize inp.odors inp.randomize_presentation_order with
    | none => none
    | some (randomize, w1) =>
      let nrw := resolveRepeats inp.n_repeats randomize
      let trial_pins := if randomize then shuffle odor_pins else odor_pins
      let trial_pinlists := trial_pins.flatMap (fun p => List.replicate nrw.1 [p])
      let pinlist := add_balance_pins trial_pinlists inp.pins2balances
      match panelCO2Rewire inp pins2odors pinlist with
      | none => none
      | some (d, pl) => some ⟨d, pl, w1 ++ nrw.2⟩
  else none

end basic_plus_co2

end OlfConfig

namespace OlfConfig

/-! ### Generic lemmas about `seqMap` -/

theorem seqMap_nil {α β : Type} (f : α → Option β) : seqMap f [] = some [] := rfl

theorem seqMap_length {α β : Type} {f : α → Option β} :
    ∀ {xs : List α} {ys : List β}, seqMap f xs = some ys → ys.length = xs.length := by
  intro xs
  induction xs with
  | nil => intro ys h; simp only [seqMap, Option.some.injEq] at h; subst h; rfl
  | cons x xs ih =>
    intro ys h
    simp only [seqMap] at h
    split at h
    · rename_i y ys' hfx hrest
      injection h with h
      subst h
      simp [ih hrest]
    · exact Option.noConfusion h

theorem seqMap_isSome_of_mem {α β : Type} {f : α → Option β} :
    ∀ {xs : List α} {ys : List β}, seqMap f xs = some ys →
      ∀ x ∈ xs, (f x).isSome := by
  intro xs
  induction xs with
  | nil => intro ys _ x hx; exact absurd hx (List.not_mem_nil x)
  | cons a xs ih =>
    intro ys h x hx
    simp only [seqMap] at h
    split at h
    · rename_i y ys' hfx hrest
      rcases List.mem_cons.mp hx with hxa | hxs
      · subst hxa; simp [hfx]
      · exact ih hrest x hxs
    · exact Option.noConfusion h

theorem seqMap_eq_map {α β : Type} (d : β) {f : α → Option β} :
    ∀ {xs : List α} {ys : List β}, seqMap f xs = some ys →
      ys = xs.map (fun x => (f x).getD d) := by
  intro xs
  induction xs with
  | nil => intro ys h; simp only [seqMap, Option.some.injEq] at h; subst h; rfl
  | cons a xs ih =>
    intro ys h
    simp only [seqMap] at h
    split at h
    · rename_i y ys' hfx hrest
      injection h with h
      subst h
      simp [hfx, ih hrest]
    · exact Option.noConfusion h

theorem seqMap_eq_none_of_mem {α β : Type} {f : α → Option β} :
    ∀ {xs : List α}, (∃ x ∈ xs, f x = none) → seqMap f xs = none := by
  intro xs
  induction xs with
  | nil => rintro ⟨x, hx, _⟩; exact absurd hx (List.not_mem_nil x)
  | cons a xs ih =>
    rintro ⟨x, hx, hfx⟩
    rcases List.mem_cons.mp hx with hxa | hxs
    · subst hxa
      cases hrest : seqMap f xs <;> simp [seqMap, hfx, hrest]
    · have := ih ⟨x, hxs, hfx⟩
      cases hfa : f a <;> simp [seqMap, hfa, this]

theorem seqMap_mem {α β : Type} {f : α → Option β} :
    ∀ {xs : List α} {ys : List β}, seqMap f xs = some ys →
      ∀ y ∈ ys, ∃ x ∈ xs, f x = some y := by
  intro xs
  induction xs with
  | nil =>
    intro ys h y hy
    simp only [seqMap, Option.some.injEq] at h
    subst h; exact absurd hy (List.not_mem_nil y)
  | cons a xs ih =>
    intro ys h y hy
    simp only [seqMap] at h
    split at h
    · rename_i y' ys' hfx hrest
      injection h with h
      subst h
      rcases List.mem_cons.mp hy with hya | hys
      · exact ⟨a, List.mem_cons_self a xs, by rw [hfx, hya]⟩
      · rcases ih hrest y hys with ⟨x, hxmem, hfxy⟩
        exact ⟨x, List.mem_cons_of_mem a hxmem, hfxy⟩
    · exact Option.noConfusion h

/-! ### Generic lemmas about the Python-dict model -/

theorem keysOf_dictInsert_mem {α β : Type} [DecidableEq α] (d : List (α × β))
    (k : α) (v : β) (h : k ∈ keysOf d) : keysOf (dictInsert d k v) = keysOf d := by
  rw [dictInsert, if_pos h]
  unfold keysOf
  rw [List.map_map]
  apply List.map_congr_left
  intro kv _
  by_cases hk : kv.1 = k <;> simp [hk]

theorem dictInsert_not_mem {α β : Type} [DecidableEq α] (d : List (α × β))
    (k : α) (v : β) (h : k ∉ keysOf d) : dictInsert d k v = d ++ [(k, v)] := by
  simp [dictInsert, h]

theorem length_dictInsert_mem {α β : Type} [DecidableEq α] (d : List (α × β))
    (k : α) (v : β) (h : k ∈ keysOf d) : (dictInsert d k v).length = d.length := by
  simp [dictInsert, if_pos h]

theorem length_dictInsert_not_mem {α β : Type} [DecidableEq α] (d : List (α × β))
    (k : α) (v : β) (h : k ∉ keysOf d) :
    (dictInsert d k v).length = d.length + 1 := by
  simp [dictInsert, h]

theorem foldl_dictInsert_nodup {α β : Type} [DecidableEq α] :
    ∀ (l acc : List (α × β)), (keysOf acc ++ keysOf l).Nodup →
      l.foldl (fun d kv => dictInsert d kv.1 kv.2) acc = acc ++ l := by
  intro l
  induction l with
  | nil => intro acc _; simp
  | cons kv l ih =>
    intro acc hnd
    have hdisj : (keysOf acc).Disjoint (keysOf (kv :: l)) :=
      (List.nodup_append.mp hnd).2.2
    have hk : kv.1 ∉ keysOf acc := by
      intro hmem
      exact hdisj hmem (by simp [keysOf])
    simp only [List.foldl_cons]
    rw [dictInsert_not_mem acc kv.1 kv.2 hk]
    have hnd' : (keysOf (acc ++ [kv]) ++ keysOf l).Nodup := by
      simp only [keysOf, List.map_append, List.map_cons, List.map_nil] at hnd ⊢
      simpa [List.append_assoc] using hnd
    have := ih (acc ++ [kv]) hnd'
    simpa [List.append_assoc] using this

theorem dictOfList_nodup {α β : Type} [DecidableEq α] (l : List (α × β))
    (h : (keysOf l).Nodup) : dictOfList l = l := by
  have := foldl_dictInsert_nodup l [] (by simpa [keysOf] using h)
  simpa [dictOfList] using this

theorem alookup_eq_none {α β : Type} [DecidableEq α] (k : α) :
    ∀ (d : List (α × β)), k ∉ keysOf d → alookup k d = none := by
  intro d
  induction d with
  | nil => intro _; rfl
  | cons kv d ih =>
    intro h
    have h1 : kv.1 ≠ k := by
      intro he; exact h (by simp [keysOf, he])
    have h2 : k ∉ keysOf d := fun hm => h (by simp [keysOf] at hm ⊢; exact Or.inr hm)
    simp [alookup, h1, ih h2]

theorem alookup_append {α β : Type} [DecidableEq α] (k : α) :
    ∀ (d e : List (α × β)), alookup k (d ++ e) =
      match alookup k d with
      | some v => some v
      | none => alookup k e := by
  intro d e
  induction d with
  | nil => simp [alookup]
  | cons kv d ih =>
    by_cases h : kv.1 = k <;> simp [alookup, h, ih]

theorem alookup_dictInsert_self {α β : Type} [DecidableEq α] (d : List (α × β))
    (k : α) (v : β) : alookup k (dictInsert d k v) = some v := by
  by_cases h : k ∈ keysOf d
  · simp only [dictInsert, if_pos h]
    induction d with
    | nil => simp [keysOf] at h
    | cons kv d ih =>
      by_cases hk : kv.1 = k
      · simp [alookup, hk]
      · have hm : k ∈ keysOf d := by
          simp only [keysOf, List.map_cons, List.mem_cons] at h
          rcases h with h | h
          · exact absurd h.symm hk
          · exact h
        simp only [List.map_cons, if_neg hk]
        simp [alookup, hk, ih hm]
  · rw [dictInsert_not_mem d k v h, alookup_append, alookup_eq_none k d h]
    simp [alookup]

theorem alookup_map_update {α β : Type} [DecidableEq α] (k k' : α) (v : β)
    (hne : k' ≠ k) :
    ∀ (d : List (α × β)),
      alookup k' (d.map (fun kv => if kv.1 = k then (k, v) else kv)) =
        alookup k' d := by
  intro d
  induction d with
  | nil => rfl
  | cons kv d ih =>
    simp only [List.map_cons]
    by_cases hk : kv.1 = k
    · rw [if_pos hk]
      have h1 : ¬ (k = k') := fun he => hne he.symm
      have h2 : ¬ (kv.1 = k') := by rw [hk]; exact h1
      simp [alookup, h1, h2, ih]
    · rw [if_neg hk]
      by_cases hk' : kv.1 = k'
      · simp [alookup, hk']
      · simp [alookup, hk', ih]

theorem alookup_dictInsert_ne {α β : Type} [DecidableEq α] (d : List (α × β))
    (k k' : α) (v : β) (hne : k' ≠ k) :
    alookup k' (dictInsert d k v) = alookup k' d := by
  by_cases h : k ∈ keysOf d
  · rw [dictInsert, if_pos h]
    exact alookup_map_update k k' v hne d
  · rw [dictInsert_not_mem d k v h, alookup_append]
    cases halt : alookup k' d with
    | some w => rfl
    | none =>
      show alookup k' [(k, v)] = none
      have h1 : ¬ (k = k') := fun he => hne he.symm
      simp [alookup, h1]

/-! ### Generic lemmas about `flatMap` of `replicate` -/

theorem length_flatMap_replicate {α β : Type} (n : ℕ) (f : α → β) :
    ∀ (l : List α), (l.flatMap (fun x => List.replicate n (f x))).length = l.length * n := by
  intro l
  induction l with
  | nil => simp
  | cons a l ih => simp [List.flatMap_cons, ih, Nat.succ_mul, Nat.add_comm]

theorem length_flatMap_replicate' {α : Type} (n : ℕ) :
    ∀ (l : List α), (l.flatMap (fun x => List.replicate n x)).length = l.length * n := by
  intro l
  simpa using length_flatMap_replicate n (fun x => x) l

theorem map_flatMap_replicate {α β γ : Type} (n : ℕ) (f : α → β) (g : β → γ) :
    ∀ (l : List α), (l.flatMap (fun x => List.replicate n (f x))).map g =
      l.flatMap (fun x => List.replicate n (g (f x))) := by
  intro l
  induction l with
  | nil => simp
  | cons a l ih => simp [List.flatMap_cons, ih]

theorem mem_flatMap_replicate {α β : Type} {n : ℕ} {f : α → β} {l : List α} {y : β}
    (h : y ∈ l.flatMap (fun x => List.replicate n (f x))) : ∃ x ∈ l, y = f x := by
  rcases List.mem_flatMap.mp h with ⟨x, hx, hy⟩
  exact ⟨x, hx, List.eq_of_mem_replicate hy⟩

end OlfConfig

namespace OlfConfig

/-! ### Inversion lemmas for the pair scheduler -/

theorem make_pair_eq_some {inp : PairInput} {cfgs : List PairConfig}
    (h : simple_pairs.make_config_dict inp = some cfgs) :
    inp.single_manifold = false ∧
      (inp.pins2balances.map Prod.snd).dedup.length = 2 ∧
      seqMap (fun pr => processPair inp pr.1 pr.2) inp.odor_pairs = some cfgs := by
  simp only [simple_pairs.make_config_dict] at h
  split at h
  · exact Option.noConfusion h
  · split at h
    · rename_i hsm hbal
      exact ⟨by simpa using hsm, hbal, h⟩
    · exact Option.noConfusion h

theorem processPair_eq_some {inp : PairInput} {o1 o2 : PairOdor} {cfg : PairConfig}
    (h : processPair inp o1 o2 = some cfg) :
    o1.name ≠ o2.name ∧
      ∃ p2o compPin trials,
        pairPins2Odors inp o1 o2 = some (p2o, compPin) ∧
        seqMap
          (fun cc => trial_pins_for inp (vials2pins p2o) compPin o1.name o2.name cc.1 cc.2)
          (pairCombos o1 o2) = some trials ∧
        cfg = ⟨p2o, trials.flatMap (fun pl => List.replicate inp.n_repeats pl)⟩ := by
  simp only [processPair] at h
  split at h
  · exact Option.noConfusion h
  · rename_i hne
    refine ⟨hne, ?_⟩
    split at h
    · exact Option.noConfusion h
    · rename_i p2o compPin hp2o
      split at h
      · exact Option.noConfusion h
      · rename_i trials htr
        injection h with h
        exact ⟨p2o, compPin, trials, hp2o, htr, h.symm⟩

theorem streamSynth_co2 (o1 o2 : PairOdor) (pool : List ℕ) :
    streamSynth o1 o2 "CO2" pool = some ([], []) := by
  simp [streamSynth]

theorem streamSynth_eq_some {o1 o2 : PairOdor} {n : String} {pool : List ℕ}
    {v : List Vial} {p : List ℕ} (hn : n ≠ "CO2")
    (h : streamSynth o1 o2 n pool = some (v, p)) :
    (odor_name2log10_concs o1 o2 n).length + 1 ≤ pool.length ∧
      v = (odor_name2log10_concs o1 o2 n).map (fun c => ⟨n, c⟩) ∧
      p = pool.take (odor_name2log10_concs o1 o2 n).length := by
  simp only [streamSynth, if_neg hn] at h
  split at h
  · rename_i hlen
    injection h with h
    exact ⟨hlen, congrArg Prod.fst h.symm, congrArg Prod.snd h.symm⟩
  · exact Option.noConfusion h

theorem streamSynth_none {o1 o2 : PairOdor} {n : String} {pool : List ℕ}
    (hn : n ≠ "CO2") (hlen : pool.length < (odor_name2log10_concs o1 o2 n).length + 1) :
    streamSynth o1 o2 n pool = none := by
  simp only [streamSynth, if_neg hn]
  rw [if_neg]
  omega

theorem pairVialsAndPins_eq_some {inp : PairInput} {o1 o2 : PairOdor}
    {vials : List Vial} {pins : List ℕ}
    (h : pairVialsAndPins inp o1 o2 = some (vials, pins)) :
    ∃ v1 p1 v2 p2,
      streamSynth o1 o2 o1.name inp.available_group1_valve_pins = some (v1, p1) ∧
      streamSynth o1 o2 o2.name inp.available_group2_valve_pins = some (v2, p2) ∧
      vials = v1 ++ v2 ∧ pins = p1 ++ p2 := by
  simp only [pairVialsAndPins] at h
  split at h
  · exact Option.noConfusion h
  · rename_i v1 p1 h1
    split at h
    · exact Option.noConfusion h
    · rename_i v2 p2 h2
      injection h with h
      exact ⟨v1, p1, v2, p2, h1, h2,
        (congrArg Prod.fst h).symm, (congrArg Prod.snd h).symm⟩

theorem pairPins2Odors_noCO2 {inp : PairInput} {o1 o2 : PairOdor}
    (h1 : o1.name ≠ "CO2") (h2 : o2.name ≠ "CO2")
    {d : List (ℕ × Vial)} {c : Option ℕ}
    (h : pairPins2Odors inp o1 o2 = some (d, c)) :
    ∃ vials pins, pairVialsAndPins inp o1 o2 = some (vials, pins) ∧
      d = dictOfList (pins.zip vials) ∧ c = none := by
  simp only [pairPins2Odors] at h
  split at h
  · exact Option.noConfusion h
  · rename_i vials pins hvp
    rw [if_neg (by simp [h1, h2])] at h
    injection h with h
    exact ⟨vials, pins, hvp, (congrArg Prod.fst h).symm, (congrArg Prod.snd h).symm⟩

theorem pairPins2Odors_CO2 {inp : PairInput} {o1 o2 : PairOdor}
    (hco2 : o1.name = "CO2" ∨ o2.name = "CO2")
    {d : List (ℕ × Vial)} {c : Option ℕ}
    (h : pairPins2Odors inp o1 o2 = some (d, c)) :
    ∃ vials pins co2_conc co2pin comp,
      pairVialsAndPins inp o1 o2 = some (vials, pins) ∧
      odor_name2log10_concs o1 o2 "CO2" = [co2_conc] ∧
      inp.co2_pin = some co2pin ∧
      inp.available_group2_valve_pins.getLast? = some comp ∧
      d = dictInsert (dictInsert (dictOfList (pins.zip vials)) co2pin ⟨"CO2", co2_conc⟩)
            comp airCO2Vial ∧
      c = some comp := by
  simp only [pairPins2Odors] at h
  split at h
  · exact Option.noConfusion h
  · rename_i vials pins hvp
    rw [if_pos hco2] at h
    split at h
    · rename_i co2_conc hconcs
      split at h
      · rename_i co2pin hpin
        split at h
        · rename_i comp hlast
          injection h with h
          refine ⟨vials, pins, co2_conc, co2pin, comp, hvp, hconcs, hpin, hlast,
            (congrArg Prod.fst h).symm, (congrArg Prod.snd h).symm⟩
        · exact Option.noConfusion h
      · exact Option.noConfusion h
    · exact Option.noConfusion h

end OlfConfig

namespace OlfConfig

/-- The two-element ascending pin list `sorted(\x7bp1, p2\x7d)` for distinct pins. -/
def sortedPinPair (p1 p2 : ℕ) : List ℕ :=
  if p1 ≤ p2 then [p1, p2] else [p2, p1]

theorem trial_pins_for_eq_some {inp : PairInput} {v2p : List (VialKey × ℕ)}
    {compPin : Option ℕ} {n1 n2 : String} {c1 c2 : Conc} {pl : List ℕ}
    (hsm : inp.single_manifold = false)
    (h : trial_pins_for inp v2p compPin n1 n2 c1 c2 = some pl) :
    ∃ p1 p2, alookup (get_vial_tuple inp.single_manifold n1 c1) v2p = some p1 ∧
      alookup (get_vial_tuple inp.single_manifold n2 c2) v2p = some p2 ∧
      p1 ≠ p2 ∧
      ((¬(n1 = "CO2" ∨ n2 = "CO2") ∧
        pl = sortedPinPair p1 p2 ++ [inp.group1_balance_pin, inp.group2_balance_pin]) ∨
       ((n1 = "CO2" ∨ n2 = "CO2") ∧ ∃ cp, compPin = some cp ∧
        pl = (sortedPinPair p1 p2 ++ [inp.group1_balance_pin, inp.group2_balance_pin]) ++ [cp])) := by
  simp only [trial_pins_for] at h
  split at h
  · exact Option.noConfusion h
  · rename_i p1 hl1
    split at h
    · exact Option.noConfusion h
    · rename_i p2 hl2
      rw [hsm] at h
      simp only [Bool.false_eq_true, if_false] at h
      refine ⟨p1, p2, hl1, hl2, ?_⟩
      by_cases hpp : p1 = p2
      · rw [if_pos hpp] at h
        norm_num at h
        exact Option.noConfusion h
      · rw [if_neg hpp] at h
        have hlen : ((if p1 ≤ p2 then [p1, p2] else [p2, p1]) : List ℕ).length = 2 := by
          by_cases hle : p1 ≤ p2 <;> simp [hle]
        rw [if_pos hlen] at h
        refine ⟨hpp, ?_⟩
        by_cases hco2 : n1 = "CO2" ∨ n2 = "CO2"
        · rw [if_pos hco2] at h
          refine Or.inr ⟨hco2, ?_⟩
          split at h
          · rename_i cp
            injection h with h
            refine ⟨cp, rfl, ?_⟩
            rw [← h]
            simp [sortedPinPair]
          · exact Option.noConfusion h
        · rw [if_neg hco2] at h
          injection h with h
          exact Or.inl ⟨hco2, by rw [← h]; simp [sortedPinPair]⟩

end OlfConfig

namespace OlfConfig

/-! ### Inversion lemmas for the panel scheduler -/

theorem panelCO2Rewire_no_co2 {inp : PanelInput} {d : List (ℕ × Vial)}
    {pl : List (List ℕ)}
    (hfilter : inp.odors.filter (fun o => o.name = "CO2") = []) :
    panelCO2Rewire inp d pl = some (d, pl) := by
  simp [panelCO2Rewire, hfilter]

theorem panelCO2Rewire_co2_inv {inp : PanelInput} {p2o : List (ℕ × Vial)}
    {pinlist : List (List ℕ)} {co2_odor : Vial} {d : List (ℕ × Vial)}
    {pl : List (List ℕ)}
    (hfilter : inp.odors.filter (fun o => o.name = "CO2") = [co2_odor])
    (h : panelCO2Rewire inp p2o pinlist = some (d, pl)) :
    ∃ co2pin curr,
      inp.co2_pin = some co2pin ∧
      (p2o.filter (fun kv => kv.2.name = "CO2")).map Prod.fst = [curr] ∧
      (∀ l ∈ pinlist, co2pin ∉ l) ∧
      d = dictInsert (dictInsert p2o curr airCO2MixVial) co2pin co2_odor ∧
      pl = pinlist.map (fun l => if curr ∈ l then l ++ [co2pin] else l) := by
  rw [panelCO2Rewire, hfilter] at h
  split at h
  · rename_i heq
    exact absurd heq (List.cons_ne_nil co2_odor [])
  · rename_i co2_odor' co2pin heq hpin
    injection heq with heq1 heq2
    subst heq1
    split at h
    · rename_i curr hcurr
      split at h
      · exact Option.noConfusion h
      · rename_i hany
        injection h with h
        refine ⟨co2pin, curr, hpin, hcurr, ?_,
          (congrArg Prod.fst h).symm, (congrArg Prod.snd h).symm⟩
        intro l hl hmem
        apply hany
        simp only [List.any_eq_true, decide_eq_true_eq]
        exact ⟨l, hl, hmem⟩
    · exact Option.noConfusion h
  · exact Option.noConfusion h

end OlfConfig

namespace OlfConfig

/-- The pre-CO2-rewiring trial pinlist of the panel scheduler: the
(possibly shuffled) odor pins, each expanded to `n_repeats` consecutive
single-pin trials, then merged with balance pins. -/
def panelPrePinlist (sample : List ℕ → ℕ → List ℕ) (shuffle : List ℕ → List ℕ)
    (inp : PanelInput) (randomize : Bool) (n_repeats : ℕ) : List (List ℕ) :=
  add_balance_pins
    ((if randomize then shuffle (sample inp.available_valve_pins inp.odors.length)
      else sample inp.available_valve_pins inp.odors.length).flatMap
      (fun p => List.replicate n_repeats [p]))
    inp.pins2balances

theorem make_panel_eq_some {sample : List ℕ → ℕ → List ℕ}
    {shuffle : List ℕ → List ℕ} {inp : PanelInput} {cfg : PanelConfig}
    (h : basic_plus_co2.make_config_dict sample shuffle inp = some cfg) :
    inp.odors.length ≤ inp.available_valve_pins.length ∧
    ∃ randomize w1 d pl,
      resolveRandomize inp.odors inp.randomize_presentation_order = some (randomize, w1) ∧
      panelCO2Rewire inp
        (dictOfList ((sample inp.available_valve_pins inp.odors.length).zip inp.odors))
        (panelPrePinlist sample shuffle inp randomize
          (resolveRepeats inp.n_repeats randomize).1) = some (d, pl) ∧
      cfg = ⟨d, pl, w1 ++ (resolveRepeats inp.n_repeats randomize).2⟩ := by
  simp only [basic_plus_co2.make_config_dict] at h
  split at h
  · rename_i hpool
    refine ⟨hpool, ?_⟩
    split at h
    · exact Option.noConfusion h
    · rename_i randomize w1 hrand
      split at h
      · exact Option.noConfusion h
      · rename_i d pl hrrw
        injection h with h
        exact ⟨randomize, w1, d, pl, hrand, hrrw, h.symm⟩
  · exact Option.noConfusion h

end OlfConfig

namespace OlfConfig

/-! ### Concrete example inputs (used to witness the theorems) -/

/-- A deterministic stand-in for `random.sample`: take the first `n` pool
elements (a valid sample when the pool has at least `n` distinct pins). -/
def sampleTake : List ℕ → ℕ → List ℕ := fun l n => l.take n

/-- A deterministic stand-in for `random.shuffle`: the identity permutation. -/
def shuffleId : List ℕ → List ℕ := fun l => l

/-- The pair-scheduler scenario of the spec: streams `X:[-6,-4]` and
`Y:[-5,-3]`, pools of size 3 each, dual manifold, `n_repeats = 2`. -/
def pairInputXY : PairInput :=
  { n_repeats := 2
    odor_pairs := [(⟨"X", [some (-6), some (-4)]⟩, ⟨"Y", [some (-5), some (-3)]⟩)]
    available_group1_valve_pins := [2, 3, 4]
    available_group2_valve_pins := [10, 11, 12]
    group1_balance_pin := 20
    group2_balance_pin := 21
    co2_pin := none
    single_manifold := false
    pins2balances := [(2, 20), (3, 20), (4, 20), (10, 21), (11, 21), (12, 21)] }

/-- The generated config for `pairInputXY`. -/
def pairCfgXY : PairConfig :=
  { pins2odors := [(2, ⟨"X", some (-6)⟩), (3, ⟨"X", some (-4)⟩),
      (10, ⟨"Y", some (-5)⟩), (11, ⟨"Y", some (-3)⟩)]
    pinlist_at_each_trial := [[2, 10, 20, 21], [2, 10, 20, 21],
      [2, 11, 20, 21], [2, 11, 20, 21], [3, 10, 20, 21], [3, 10, 20, 21],
      [3, 11, 20, 21], [3, 11, 20, 21]] }

theorem make_pairInputXY :
    simple_pairs.make_config_dict pairInputXY = some [pairCfgXY] := by decide

/-- A pair input whose first stream is CO2 (concentration ramp `[5]`),
second stream `X:[-6,-4]`; group-1 pool `[2,3]`, group-2 pool `[4,5,6]`. -/
def pairInputCO2first : PairInput :=
  { n_repeats := 1
    odor_pairs := [(⟨"CO2", [some 5]⟩, ⟨"X", [some (-6), some (-4)]⟩)]
    available_group1_valve_pins := [2, 3]
    available_group2_valve_pins := [4, 5, 6]
    group1_balance_pin := 7
    group2_balance_pin := 8
    co2_pin := some 9
    single_manifold := false
    pins2balances := [(2, 7), (3, 7), (4, 8), (5, 8), (6, 8)] }

/-- The generated config for `pairInputCO2first`: note the compensation
entry sits on pin 6, the last pin of the group-2 pool (stream `X`'s pool),
not on pin 3, the last pin of the CO2 stream's own group-1 pool. -/
def pairCfgCO2first : PairConfig :=
  { pins2odors := [(4, ⟨"X", some (-6)⟩), (5, ⟨"X", some (-4)⟩),
      (9, ⟨"CO2", some 5⟩), (6, airCO2Vial)]
    pinlist_at_each_trial := [[4, 9, 7, 8, 6], [5, 9, 7, 8, 6]] }

theorem make_pairInputCO2first :
    simple_pairs.make_config_dict pairInputCO2first = some [pairCfgCO2first] := by
  decide

/-- `pairInputXY` with single-manifold hardware flagged by the resolver. -/
def pairInputSM : PairInput :=
  { pairInputXY with single_manifold := true }

end OlfConfig

namespace OlfConfig

/-- The panel scenario of the spec: odors A, B, CO2; pool `[2,3,4]`;
`co2_pin = 5`; `n_repeats = 1`; randomization explicitly off. -/
def panelInputABC : PanelInput :=
  { odors := [⟨"A", some (-3)⟩, ⟨"B", some (-4)⟩, ⟨"CO2", some 5⟩]
    available_valve_pins := [2, 3, 4]
    pins2balances := [(2, 6), (3, 6), (4, 6)]
    randomize_presentation_order := some (PyVal.bool false)
    n_repeats := some 1
    co2_pin := some 5 }

/-- The generated config for `panelInputABC` under `sampleTake`/`shuffleId`. -/
def panelCfgABC : PanelConfig :=
  { pins2odors := [(2, ⟨"A", some (-3)⟩), (3, ⟨"B", some (-4)⟩),
      (4, airCO2MixVial), (5, ⟨"CO2", some 5⟩)]
    pinlist_at_each_trial := [[2, 6], [3, 6], [4, 6, 5]]
    warnings := [] }

theorem make_panelInputABC :
    basic_plus_co2.make_config_dict sampleTake shuffleId panelInputABC =
      some panelCfgABC := by decide

/-- A single-odor panel with `randomize_presentation_order` and `n_repeats`
both unspecified. -/
def panelInputSingle : PanelInput :=
  { odors := [⟨"A", some (-3)⟩]
    available_valve_pins := [2, 3]
    pins2balances := [(2, 6), (3, 6)]
    randomize_presentation_order := none
    n_repeats := none
    co2_pin := none }

theorem make_panelInputSingle :
    basic_plus_co2.make_config_dict sampleTake shuffleId panelInputSingle =
      some ⟨[(2, ⟨"A", some (-3)⟩)], [[2, 6]], []⟩ := by decide

/-- A single-odor panel whose `randomize_presentation_order` key holds the
integer 1 (a YAML `1`), not a boolean. -/
def panelInputInt1 : PanelInput :=
  { odors := [⟨"A", some (-3)⟩]
    available_valve_pins := [2]
    pins2balances := [(2, 6)]
    randomize_presentation_order := some (PyVal.int 1)
    n_repeats := none
    co2_pin := none }

/-- An empty-odor panel, `randomize_presentation_order` unspecified. -/
def panelInputEmptyNone : PanelInput :=
  { odors := []
    available_valve_pins := [2]
    pins2balances := [(2, 6)]
    randomize_presentation_order := none
    n_repeats := none
    co2_pin := none }

/-- An empty-odor panel with `randomize_presentation_order` supplied. -/
def panelInputEmptyTrue : PanelInput :=
  { panelInputEmptyNone with randomize_presentation_order := some (PyVal.bool true) }

end OlfConfig

namespace OlfConfig

theorem odor_name2log10_concs_fst {o1 o2 : PairOdor} (hne : o1.name ≠ o2.name) :
    odor_name2log10_concs o1 o2 o1.name = o1.log10_concentrations := by
  simp [odor_name2log10_concs, hne]

theorem odor_name2log10_concs_snd (o1 o2 : PairOdor) :
    odor_name2log10_concs o1 o2 o2.name = o2.log10_concentrations := by
  simp [odor_name2log10_concs]

theorem processPair_none_dup {inp : PairInput} {o1 o2 : PairOdor}
    (h : o1.name = o2.name) : processPair inp o1 o2 = none := by
  simp [processPair, h]

theorem pairVialsAndPins_none_fst {inp : PairInput} {o1 o2 : PairOdor}
    (h : streamSynth o1 o2 o1.name inp.available_group1_valve_pins = none) :
    pairVialsAndPins inp o1 o2 = none := by
  simp [pairVialsAndPins, h]

theorem pairVialsAndPins_none_snd {inp : PairInput} {o1 o2 : PairOdor}
    (h : streamSynth o1 o2 o2.name inp.available_group2_valve_pins = none) :
    pairVialsAndPins inp o1 o2 = none := by
  rw [pairVialsAndPins]
  cases h1 : streamSynth o1 o2 o1.name inp.available_group1_valve_pins with
  | none => rfl
  | some vp => cases vp with | mk v1 p1 => rw [h]

theorem pairPins2Odors_none {inp : PairInput} {o1 o2 : PairOdor}
    (h : pairVialsAndPins inp o1 o2 = none) : pairPins2Odors inp o1 o2 = none := by
  simp [pairPins2Odors, h]

theorem processPair_none_p2o {inp : PairInput} {o1 o2 : PairOdor}
    (hne : o1.name ≠ o2.name) (h : pairPins2Odors inp o1 o2 = none) :
    processPair inp o1 o2 = none := by
  simp [processPair, hne, h]

theorem processPair_none_short {inp : PairInput} {o1 o2 : PairOdor}
    (h : (o1.name ≠ "CO2" ∧
          inp.available_group1_valve_pins.length <
            o1.log10_concentrations.length + 1) ∨
         (o2.name ≠ "CO2" ∧
          inp.available_group2_valve_pins.length <
            o2.log10_concentrations.length + 1)) :
    processPair inp o1 o2 = none := by
  by_cases hdup : o1.name = o2.name
  · exact processPair_none_dup hdup
  · refine processPair_none_p2o hdup (pairPins2Odors_none ?_)
    rcases h with ⟨hco2, hshort⟩ | ⟨hco2, hshort⟩
    · refine pairVialsAndPins_none_fst (streamSynth_none hco2 ?_)
      rw [odor_name2log10_concs_fst hdup]
      exact hshort
    · refine pairVialsAndPins_none_snd (streamSynth_none hco2 ?_)
      rw [odor_name2log10_concs_snd]
      exact hshort

/-- C6: the pair scheduler aborts with no output on single-manifold
hardware, on a number of distinct balance pins other than two, on a pair
whose two odors share a name, and on a non-CO2 stream whose manifold pool
is smaller than its ramp length plus one. -/
theorem pair_scheduler_fatal_preconditions (inp : PairInput)
    (h : inp.single_manifold = true ∨
         (inp.pins2balances.map Prod.snd).dedup.length ≠ 2 ∨
         (∃ pr ∈ inp.odor_pairs, pr.1.name = pr.2.name) ∨
         (∃ pr ∈ inp.odor_pairs,
            (pr.1.name ≠ "CO2" ∧
             inp.available_group1_valve_pins.length <
               pr.1.log10_concentrations.length + 1) ∨
            (pr.2.name ≠ "CO2" ∧
             inp.available_group2_valve_pins.length <
               pr.2.log10_concentrations.length + 1))) :
    simple_pairs.make_config_dict inp = none := by
  rcases h with hsm | hbal | ⟨pr, hpr, hdup⟩ | ⟨pr, hpr, hshort⟩
  · simp [simple_pairs.make_config_dict, hsm]
  · simp [simple_pairs.make_config_dict, hbal]
  · have hnone := seqMap_eq_none_of_mem
      (f := fun pr : PairOdor × PairOdor => processPair inp pr.1 pr.2)
      ⟨pr, hpr, processPair_none_dup hdup⟩
    simp [simple_pairs.make_config_dict, hnone]
  · have hnone := seqMap_eq_none_of_mem
      (f := fun pr : PairOdor × PairOdor => processPair inp pr.1 pr.2)
      ⟨pr, hpr, processPair_none_short hshort⟩
    simp [simple_pairs.make_config_dict, hnone]

/-- C6 witness: single-manifold hardware handed to the pair scheduler is
fatal on a concrete input. -/
theorem pair_scheduler_fatal_preconditions_witness :
    simple_pairs.make_config_dict pairInputSM = none :=
  pair_scheduler_fatal_preconditions pairInputSM (Or.inl rfl)

end OlfConfig

namespace OlfConfig

/-- C10: any successful pair-scheduler run has dual-manifold hardware
(`assert not single_manifold` precedes all pair processing), so every
reverse-lookup key built by `get_vial_tuple` during such a run is a
name/concentration key — the shared `solvent` identity of the
single-manifold branch is unreachable. -/
theorem pair_solvent_branch_unreachable {inp : PairInput}
    {cfgs : List PairConfig}
    (h : simple_pairs.make_config_dict inp = some cfgs) :
    inp.single_manifold = false ∧
      ∀ (n : String) (c : Conc),
        get_vial_tuple inp.single_manifold n c = VialKey.named n c ∧
        get_vial_tuple inp.single_manifold n c ≠ VialKey.solvent := by
  have hsm := (make_pair_eq_some h).1
  refine ⟨hsm, fun n c => ?_⟩
  rw [hsm]
  refine ⟨by simp [get_vial_tuple], by simp [get_vial_tuple]⟩

/-- C10 witness: instantiated on the concrete dual-manifold run
`pairInputXY`, at the null concentration where the solvent branch would
otherwise fire. -/
theorem pair_solvent_branch_unreachable_witness :
    pairInputXY.single_manifold = false ∧
      (get_vial_tuple pairInputXY.single_manifold "X" none =
        VialKey.named "X" none ∧
       get_vial_tuple pairInputXY.single_manifold "X" none ≠ VialKey.solvent) :=
  ⟨(pair_solvent_branch_unreachable make_pairInputXY).1,
   (pair_solvent_branch_unreachable make_pairInputXY).2 "X" none⟩

end OlfConfig

namespace OlfConfig

theorem seqMap_forall_mem {α β : Type} {f : α → Option β} :
    ∀ {xs : List α} {ys : List β}, seqMap f xs = some ys →
      ∀ x ∈ xs, ∃ y ∈ ys, f x = some y := by
  intro xs
  induction xs with
  | nil => intro ys _ x hx; exact absurd hx (List.not_mem_nil x)
  | cons a xs ih =>
    intro ys h x hx
    simp only [seqMap] at h
    split at h
    · rename_i y ys' hfx hrest
      injection h with h
      subst h
      rcases List.mem_cons.mp hx with hxa | hxs
      · exact ⟨y, List.mem_cons_self y ys', by rw [hxa, hfx]⟩
      · rcases ih hrest x hxs with ⟨y', hy', hfy'⟩
        exact ⟨y', List.mem_cons_of_mem y hy', hfy'⟩
    · exact Option.noConfusion h

/-- C8: the pair scheduler consumes no randomness (it is embedded as a
pure function with no random-source parameter, unlike the panel
scheduler), and on any successful run it assigns a non-CO2 pair's vials
exactly the first ramp-length pins of each stream's manifold pool, in pool
order; hence identical inputs always yield identical pin-to-odor maps and
trial lists. -/
theorem pair_deterministic_first_pins {inp : PairInput}
    {cfgs : List PairConfig} {o1 o2 : PairOdor}
    (hmk : simple_pairs.make_config_dict inp = some cfgs)
    (hmem : (o1, o2) ∈ inp.odor_pairs)
    (h1 : o1.name ≠ "CO2") (h2 : o2.name ≠ "CO2")
    (hnodup : (inp.available_group1_valve_pins.take o1.log10_concentrations.length ++
      inp.available_group2_valve_pins.take o2.log10_concentrations.length).Nodup) :
    ∃ cfg ∈ cfgs, processPair inp o1 o2 = some cfg ∧
      cfg.pins2odors =
        (inp.available_group1_valve_pins.take o1.log10_concentrations.length).zip
          (o1.log10_concentrations.map (fun c => ⟨o1.name, c⟩)) ++
        (inp.available_group2_valve_pins.take o2.log10_concentrations.length).zip
          (o2.log10_concentrations.map (fun c => ⟨o2.name, c⟩)) := by
  obtain ⟨hsm, hbal, hseq⟩ := make_pair_eq_some hmk
  obtain ⟨cfg, hcfgmem, hpp⟩ := seqMap_forall_mem hseq (o1, o2) hmem
  refine ⟨cfg, hcfgmem, hpp, ?_⟩
  obtain ⟨hne, p2o, compPin, trials, hp2o, htr, hcfg⟩ := processPair_eq_some hpp
  obtain ⟨vials, pins, hvp, hd, hc⟩ := pairPins2Odors_noCO2 h1 h2 hp2o
  obtain ⟨v1, p1, v2, p2, hs1, hs2, hveq, hpeq⟩ := pairVialsAndPins_eq_some hvp
  obtain ⟨hb1, hv1, hp1⟩ := streamSynth_eq_some h1 hs1
  obtain ⟨hb2, hv2, hp2⟩ := streamSynth_eq_some h2 hs2
  rw [odor_name2log10_concs_fst hne] at hb1 hv1 hp1
  rw [odor_name2log10_concs_snd] at hb2 hv2 hp2
  have hl1 : p1.length = v1.length := by
    rw [hp1, hv1, List.length_take, List.length_map]
    exact min_eq_left (le_trans (Nat.le_succ _) hb1)
  have hl1' : p1.length ≤ v1.length := le_of_eq hl1
  have hl2' : p2.length ≤ v2.length := by
    rw [hp2, hv2, List.length_take, List.length_map]
    exact min_le_left _ _
  have hzip : pins.zip vials = p1.zip v1 ++ p2.zip v2 := by
    rw [hpeq, hveq]
    exact List.zip_append hl1
  have hkeys : keysOf (pins.zip vials) =
      inp.available_group1_valve_pins.take o1.log10_concentrations.length ++
      inp.available_group2_valve_pins.take o2.log10_concentrations.length := by
    rw [hzip]
    unfold keysOf
    rw [List.map_append, List.map_fst_zip p1 v1 hl1', List.map_fst_zip p2 v2 hl2',
      hp1, hp2]
  rw [hcfg]
  show p2o = _
  rw [hd, dictOfList_nodup (pins.zip vials) (by rw [hkeys]; exact hnodup), hzip,
    hp1, hp2, hv1, hv2]

/-- C8 witness: on the concrete scenario input `pairInputXY` the vial pins
are exactly the first two pins of each pool, in pool order. -/
theorem pair_deterministic_first_pins_witness :
    pairCfgXY.pins2odors =
      (pairInputXY.available_group1_valve_pins.take 2).zip
        (([some (-6), some (-4)] : List Conc).map (fun c => ⟨"X", c⟩)) ++
      (pairInputXY.available_group2_valve_pins.take 2).zip
        (([some (-5), some (-3)] : List Conc).map (fun c => ⟨"Y", c⟩)) := by
  obtain ⟨cfg, hcfgmem, hpp, heq⟩ := @pair_deterministic_first_pins pairInputXY
    [pairCfgXY] ⟨"X", [some (-6), some (-4)]⟩ ⟨"Y", [some (-5), some (-3)]⟩
    make_pairInputXY (by decide) (by decide) (by decide) (by decide)
  rw [List.mem_singleton.mp hcfgmem] at heq
  exact heq

end OlfConfig

namespace OlfConfig

theorem sortedPinPair_length (p1 p2 : ℕ) : (sortedPinPair p1 p2).length = 2 := by
  unfold sortedPinPair
  by_cases h : p1 ≤ p2 <;> simp [h]

theorem pairCombos_mem {o1 o2 : PairOdor} {cc : Conc × Conc}
    (h : cc ∈ pairCombos o1 o2) :
    cc.1 ∈ sortConcs o1.log10_concentrations ∧
      cc.2 ∈ sortConcs o2.log10_concentrations := by
  rcases List.mem_flatMap.mp h with ⟨c1, hc1, hmem⟩
  rcases List.mem_map.mp hmem with ⟨c2, hc2, heq⟩
  rw [← heq]
  exact ⟨hc1, hc2⟩

theorem mem_trials_of_mem_pinlist {trials : List (List ℕ)} {n : ℕ} {pl : List ℕ}
    (h : pl ∈ trials.flatMap (fun t => List.replicate n t)) : pl ∈ trials := by
  rcases List.mem_flatMap.mp h with ⟨t, ht, hmem⟩
  rw [List.eq_of_mem_replicate hmem]
  exact ht

/-- C7: in dual-manifold mode without CO2, every trial of a successful
run is exactly the two distinct looked-up stream pins (ascending) followed
by both balance pins — four pins in all. -/
theorem pair_dual_manifold_trial_pins {inp : PairInput}
    {cfgs : List PairConfig} {o1 o2 : PairOdor}
    (hmk : simple_pairs.make_config_dict inp = some cfgs)
    (hmem : (o1, o2) ∈ inp.odor_pairs)
    (h1 : o1.name ≠ "CO2") (h2 : o2.name ≠ "CO2") :
    ∃ cfg ∈ cfgs, processPair inp o1 o2 = some cfg ∧
      ∀ pl ∈ cfg.pinlist_at_each_trial,
        pl.length = 4 ∧
        ∃ p1 p2 c1 c2,
          c1 ∈ sortConcs o1.log10_concentrations ∧
          c2 ∈ sortConcs o2.log10_concentrations ∧
          alookup (get_vial_tuple inp.single_manifold o1.name c1)
            (vials2pins cfg.pins2odors) = some p1 ∧
          alookup (get_vial_tuple inp.single_manifold o2.name c2)
            (vials2pins cfg.pins2odors) = some p2 ∧
          p1 ≠ p2 ∧
          pl = sortedPinPair p1 p2 ++
            [inp.group1_balance_pin, inp.group2_balance_pin] := by
  obtain ⟨hsm, hbal, hseq⟩ := make_pair_eq_some hmk
  obtain ⟨cfg, hcfgmem, hpp⟩ := seqMap_forall_mem hseq (o1, o2) hmem
  refine ⟨cfg, hcfgmem, hpp, ?_⟩
  intro pl hpl
  obtain ⟨hne, p2o, compPin, trials, hp2o, htr, hcfg⟩ := processPair_eq_some hpp
  have hp2od : cfg.pins2odors = p2o := by rw [hcfg]
  rw [hcfg] at hpl
  have hpl' : pl ∈ trials := mem_trials_of_mem_pinlist hpl
  obtain ⟨cc, hccmem, hccpl⟩ := seqMap_mem htr pl hpl'
  obtain ⟨hc1, hc2⟩ := pairCombos_mem hccmem
  obtain ⟨p1, p2, hl1, hl2, hpp12, hshape⟩ := trial_pins_for_eq_some hsm hccpl
  have hnotco2 : ¬(o1.name = "CO2" ∨ o2.name = "CO2") := by
    rintro (hh | hh) <;> [exact h1 hh; exact h2 hh]
  rcases hshape with ⟨_, hpleq⟩ | ⟨hco2, _⟩
  · constructor
    · rw [hpleq]
      simp [sortedPinPair_length]
    · exact ⟨p1, p2, cc.1, cc.2, hc1, hc2, by rw [hp2od]; exact hl1,
        by rw [hp2od]; exact hl2, hpp12, hpleq⟩
  · exact absurd hco2 hnotco2

/-- C7 witness: on the scenario input `pairInputXY`, the first trial is a
member of the generated trial list and has exactly 4 pins. -/
theorem pair_dual_manifold_trial_pins_witness :
    [2, 10, 20, 21] ∈ pairCfgXY.pinlist_at_each_trial ∧
      ([2, 10, 20, 21] : List ℕ).length = 4 := by
  obtain ⟨cfg, hcfgmem, hpp, hall⟩ := @pair_dual_manifold_trial_pins pairInputXY
    [pairCfgXY] ⟨"X", [some (-6), some (-4)]⟩ ⟨"Y", [some (-5), some (-3)]⟩
    make_pairInputXY (by decide) (by decide) (by decide)
  rw [List.mem_singleton.mp hcfgmem] at hall
  exact ⟨by decide, (hall [2, 10, 20, 21] (by decide)).1⟩

end OlfConfig

namespace OlfConfig

/-- A pair input whose second stream is CO2: `X:[-6]` on group-1 pool
`[2,3]`, `CO2:[5]` on group-2 pool `[5,6]`. -/
def pairInputCO2second : PairInput :=
  { n_repeats := 1
    odor_pairs := [(⟨"X", [some (-6)]⟩, ⟨"CO2", [some 5]⟩)]
    available_group1_valve_pins := [2, 3]
    available_group2_valve_pins := [5, 6]
    group1_balance_pin := 7
    group2_balance_pin := 8
    co2_pin := some 9
    single_manifold := false
    pins2balances := [(2, 7), (3, 7), (5, 8), (6, 8)] }

/-- The generated config for `pairInputCO2second`. -/
def pairCfgCO2second : PairConfig :=
  { pins2odors := [(2, ⟨"X", some (-6)⟩), (9, ⟨"CO2", some 5⟩), (6, airCO2Vial)]
    pinlist_at_each_trial := [[2, 9, 7, 8, 6]] }

theorem make_pairInputCO2second :
    simple_pairs.make_config_dict pairInputCO2second = some [pairCfgCO2second] := by
  decide

/-- C4 counterexample: with CO2 as the *first* stream of the pair, the
run succeeds but the air-compensation vial lands on pin 6 — the last pin
of the *group-2* pool (stream `X`'s manifold) — while pin 3, the last pin
of the CO2 stream's own group-1 pool, is bound to nothing, refuting the
claim that the compensation vial takes the last pin of the CO2 stream's
own manifold pool. -/
theorem pair_co2_compensation_pin_counterexample :
    simple_pairs.make_config_dict pairInputCO2first = some [pairCfgCO2first] ∧
    pairInputCO2first.odor_pairs = [(⟨"CO2", [some 5]⟩, ⟨"X", [some (-6), some (-4)]⟩)] ∧
    pairInputCO2first.available_group1_valve_pins.getLast? = some 3 ∧
    pairInputCO2first.available_group2_valve_pins.getLast? = some 6 ∧
    alookup 6 pairCfgCO2first.pins2odors = some airCO2Vial ∧
    alookup 3 pairCfgCO2first.pins2odors = none := by decide

/-- C4 (amended): when a stream of a successful pair is named CO2, no
vials are synthesized for it, the external CO2 pin is mapped to the single
CO2 concentration, the air-compensation vial is assigned the last pin of
the *group-2* (second stream's) manifold pool — which is the CO2 stream's
own pool only when CO2 is the second stream — and that compensation pin is
appended to every trial of the pair. -/
theorem pair_co2_stream_handling {inp : PairInput} {cfgs : List PairConfig}
    {o1 o2 : PairOdor}
    (hmk : simple_pairs.make_config_dict inp = some cfgs)
    (hmem : (o1, o2) ∈ inp.odor_pairs)
    (hco2 : o1.name = "CO2" ∨ o2.name = "CO2") :
    ∃ cfg ∈ cfgs, processPair inp o1 o2 = some cfg ∧
      ∃ vials pins co2_conc co2pin comp,
        pairVialsAndPins inp o1 o2 = some (vials, pins) ∧
        (∀ v ∈ vials, v.name ≠ "CO2") ∧
        odor_name2log10_concs o1 o2 "CO2" = [co2_conc] ∧
        inp.co2_pin = some co2pin ∧
        inp.available_group2_valve_pins.getLast? = some comp ∧
        alookup comp cfg.pins2odors = some airCO2Vial ∧
        (co2pin ≠ comp →
          alookup co2pin cfg.pins2odors = some ⟨"CO2", co2_conc⟩) ∧
        ∀ pl ∈ cfg.pinlist_at_each_trial, comp ∈ pl := by
  obtain ⟨hsm, hbal, hseq⟩ := make_pair_eq_some hmk
  obtain ⟨cfg, hcfgmem, hpp⟩ := seqMap_forall_mem hseq (o1, o2) hmem
  refine ⟨cfg, hcfgmem, hpp, ?_⟩
  obtain ⟨hne, p2o, compPin, trials, hp2o, htr, hcfg⟩ := processPair_eq_some hpp
  obtain ⟨vials, pins, co2_conc, co2pin, comp, hvp, hconcs, hpin, hlast, hd, hc⟩ :=
    pairPins2Odors_CO2 hco2 hp2o
  have hp2od : cfg.pins2odors = p2o := by rw [hcfg]
  refine ⟨vials, pins, co2_conc, co2pin, comp, hvp, ?_, hconcs, hpin, hlast,
    ?_, ?_, ?_⟩
  · -- no synthesized vial is a CO2 vial
    obtain ⟨v1, p1, v2, p2, hs1, hs2, hveq, hpeq⟩ := pairVialsAndPins_eq_some hvp
    intro v hv
    rw [hveq] at hv
    rcases hco2 with hn1 | hn2
    · have hv1nil : v1 = [] := by
        have := hs1
        rw [hn1, streamSynth_co2] at this
        injection this with this
        exact (congrArg Prod.fst this).symm
      have hn2' : o2.name ≠ "CO2" := by rw [← hn1]; exact fun he => hne he.symm
      obtain ⟨_, hv2, _⟩ := streamSynth_eq_some hn2' hs2
      rw [hv1nil, List.nil_append, hv2] at hv
      rcases List.mem_map.mp hv with ⟨c, _, hveq'⟩
      rw [← hveq']
      exact hn2'
    · have hv2nil : v2 = [] := by
        have := hs2
        rw [hn2, streamSynth_co2] at this
        injection this with this
        exact (congrArg Prod.fst this).symm
      have hn1' : o1.name ≠ "CO2" := by rw [← hn2]; exact hne
      obtain ⟨_, hv1, _⟩ := streamSynth_eq_some hn1' hs1
      rw [hv2nil, List.append_nil, hv1] at hv
      rcases List.mem_map.mp hv with ⟨c, _, hveq'⟩
      rw [← hveq']
      exact hn1'
  · rw [hp2od, hd]
    exact alookup_dictInsert_self _ comp airCO2Vial
  · intro hnecp
    rw [hp2od, hd, alookup_dictInsert_ne _ comp co2pin airCO2Vial hnecp]
    exact alookup_dictInsert_self _ co2pin (⟨"CO2", co2_conc⟩ : Vial)
  · intro pl hpl
    rw [hcfg] at hpl
    have hpl' : pl ∈ trials := mem_trials_of_mem_pinlist hpl
    obtain ⟨cc, hccmem, hccpl⟩ := seqMap_mem htr pl hpl'
    obtain ⟨p1, p2, _, _, _, hshape⟩ := trial_pins_for_eq_some hsm hccpl
    rcases hshape with ⟨hnco2, _⟩ | ⟨_, cp, hcp, hpleq⟩
    · exact absurd hco2 hnco2
    · rw [hc] at hcp
      injection hcp with hcp
      rw [hpleq, ← hcp]
      simp

/-- C4 witness (amended claim): with CO2 as the second stream of
`pairInputCO2second`, the compensation vial is on pin 6 — the last group-2
pool pin, here indeed the CO2 stream's own pool — and pin 6 occurs in the
single generated trial. -/
theorem pair_co2_stream_handling_witness :
    pairInputCO2second.available_group2_valve_pins.getLast? = some 6 ∧
    alookup 6 pairCfgCO2second.pins2odors = some airCO2Vial ∧
    alookup 9 pairCfgCO2second.pins2odors = some ⟨"CO2", some 5⟩ ∧
    (6 : ℕ) ∈ ([2, 9, 7, 8, 6] : List ℕ) := by
  obtain ⟨cfg, hcfgmem, hpp, vials, pins, co2_conc, co2pin, comp, hvp, hnoco2,
    hconcs, hpin, hlast, hcomp, hco2e, hall⟩ := @pair_co2_stream_handling
    pairInputCO2second [pairCfgCO2second] ⟨"X", [some (-6)]⟩ ⟨"CO2", [some 5]⟩
    make_pairInputCO2second (by decide) (by decide)
  rw [List.mem_singleton.mp hcfgmem] at hcomp hco2e hall
  have hcompv : comp = 6 := by
    have h6 : pairInputCO2second.available_group2_valve_pins.getLast? = some 6 := by
      decide
    rw [h6] at hlast
    injection hlast with hlast
    exact hlast.symm
  have hpinv : co2pin = 9 := by
    have h9 : pairInputCO2second.co2_pin = some 9 := by decide
    rw [h9] at hpin
    injection hpin with hpin
    exact hpin.symm
  have hconcv : co2_conc = some 5 := by
    have h5 : odor_name2log10_concs ⟨"X", [some (-6)]⟩ ⟨"CO2", [some 5]⟩ "CO2" =
        [some 5] := by decide
    rw [h5] at hconcs
    injection hconcs with hhead htail
    exact hhead.symm
  subst hcompv hpinv hconcv
  refine ⟨by decide, hcomp, hco2e (by decide), hall [2, 9, 7, 8, 6] (by decide)⟩

end OlfConfig

namespace OlfConfig

theorem flatMap_flatMap' {α β γ : Type} (f : α → List β) (g : β → List γ) :
    ∀ (l : List α), (l.flatMap f).flatMap g = l.flatMap (fun x => (f x).flatMap g) := by
  intro l
  induction l with
  | nil => rfl
  | cons a l ih => simp [List.flatMap_cons, List.flatMap_append, ih]

theorem length_product_pairs {α β : Type} :
    ∀ (l1 : List α) (l2 : List β),
      (l1.flatMap (fun a => l2.map (fun b => (a, b)))).length =
        l1.length * l2.length := by
  intro l1 l2
  induction l1 with
  | nil => simp
  | cons a l1 ih =>
    simp only [List.flatMap_cons, List.length_append, List.length_map, ih,
      List.length_cons]
    ring

/-- C1: each pair's trial list is exactly the cross product of the two
ramps sorted ascending (null below every number), stream 1 in the outer
loop, each combination repeated `n_repeats` consecutive times; its length
is `|ramp1| * |ramp2| * n_repeats`. -/
theorem pair_trial_order {inp : PairInput} {cfgs : List PairConfig}
    {o1 o2 : PairOdor}
    (hmk : simple_pairs.make_config_dict inp = some cfgs)
    (hmem : (o1, o2) ∈ inp.odor_pairs) :
    ∃ cfg ∈ cfgs, processPair inp o1 o2 = some cfg ∧
      ∃ p2o compPin, pairPins2Odors inp o1 o2 = some (p2o, compPin) ∧
        cfg.pinlist_at_each_trial =
          (sortConcs o1.log10_concentrations).flatMap (fun c1 =>
            (sortConcs o2.log10_concentrations).flatMap (fun c2 =>
              List.replicate inp.n_repeats
                ((trial_pins_for inp (vials2pins p2o) compPin o1.name o2.name
                  c1 c2).getD []))) ∧
        cfg.pinlist_at_each_trial.length =
          o1.log10_concentrations.length * o2.log10_concentrations.length *
            inp.n_repeats ∧
        List.Sorted concLE (sortConcs o1.log10_concentrations) ∧
        List.Sorted concLE (sortConcs o2.log10_concentrations) ∧
        (sortConcs o1.log10_concentrations).Perm o1.log10_concentrations ∧
        (sortConcs o2.log10_concentrations).Perm o2.log10_concentrations ∧
        ∀ q : ℚ, concLE none (some q) ∧ ¬ concLE (some q) none := by
  obtain ⟨hsm, hbal, hseq⟩ := make_pair_eq_some hmk
  obtain ⟨cfg, hcfgmem, hpp⟩ := seqMap_forall_mem hseq (o1, o2) hmem
  refine ⟨cfg, hcfgmem, hpp, ?_⟩
  obtain ⟨hne, p2o, compPin, trials, hp2o, htr, hcfg⟩ := processPair_eq_some hpp
  refine ⟨p2o, compPin, hp2o, ?_, ?_, ?_, ?_, ?_, ?_, ?_⟩
  · rw [hcfg]
    show trials.flatMap _ = _
    rw [seqMap_eq_map [] htr, List.flatMap_map, pairCombos,
      flatMap_flatMap']
    congr 1
    funext c1
    rw [List.flatMap_map]
  · rw [hcfg]
    show (trials.flatMap _).length = _
    rw [length_flatMap_replicate' inp.n_repeats trials, seqMap_length htr,
      pairCombos, length_product_pairs]
    unfold sortConcs
    rw [List.length_insertionSort, List.length_insertionSort]
  · exact List.sorted_insertionSort concLE _
  · exact List.sorted_insertionSort concLE _
  · exact List.perm_insertionSort concLE _
  · exact List.perm_insertionSort concLE _
  · exact fun q => ⟨True.intro, fun hh => hh⟩

/-- C1 witness: the scenario pair yields 2 * 2 * 2 = 8 trials, and its
sorted stream-1 ramp is sorted under the null-below-everything order. -/
theorem pair_trial_order_witness :
    pairCfgXY.pinlist_at_each_trial.length = 2 * 2 * 2 ∧
      List.Sorted concLE (sortConcs [some (-6), some (-4)]) := by
  obtain ⟨cfg, hcfgmem, hpp, p2o, compPin, hp2o, hlist, hlen, hs1, hs2, hperm1,
    hperm2, hq⟩ := @pair_trial_order pairInputXY [pairCfgXY]
    ⟨"X", [some (-6), some (-4)]⟩ ⟨"Y", [some (-5), some (-3)]⟩
    make_pairInputXY (by decide)
  rw [List.mem_singleton.mp hcfgmem] at hlen
  exact ⟨hlen, hs1⟩

end OlfConfig

namespace OlfConfig

theorem resolveRepeats_fst (nrep : Option ℕ) (b : Bool) :
    (resolveRepeats nrep b).1 = nrep.getD 1 := by
  cases nrep <;> rfl

/-- C9: with an empty odor list, the panel scheduler aborts when
`randomize_presentation_order` is unspecified (the defaulting branch
asserts exactly one odor), but succeeds with an empty pin-to-odor map and
an empty trial list when the flag is supplied. -/
theorem panel_empty_odors (sample : List ℕ → ℕ → List ℕ)
    (shuffle : List ℕ → List ℕ) (inp : PanelInput)
    (hodors : inp.odors = []) :
    (inp.randomize_presentation_order = none →
      basic_plus_co2.make_config_dict sample shuffle inp = none) ∧
    (∀ b : Bool, inp.randomize_presentation_order = some (PyVal.bool b) →
      sample inp.available_valve_pins 0 = [] →
      shuffle [] = [] →
      ∃ w, basic_plus_co2.make_config_dict sample shuffle inp =
        some ⟨[], [], w⟩) := by
  constructor
  · intro hrand
    simp [basic_plus_co2.make_config_dict, hodors, hrand, resolveRandomize]
  · intro b hrand hsample hshuffle
    refine ⟨(resolveRepeats inp.n_repeats b).2, ?_⟩
    cases b <;>
      simp [basic_plus_co2.make_config_dict, hodors, hrand, hsample, hshuffle,
        resolveRandomize, pyEqBool, pyTruthy, add_balance_pins, panelCO2Rewire,
        dictOfList]

/-- C9 witness: the two empty-odor panels, flag absent (fatal) and flag
supplied (successful with empty outputs). -/
theorem panel_empty_odors_witness :
    basic_plus_co2.make_config_dict sampleTake shuffleId panelInputEmptyNone =
      none ∧
    (basic_plus_co2.make_config_dict sampleTake shuffleId
      panelInputEmptyTrue).isSome = true := by
  constructor
  · exact (panel_empty_odors sampleTake shuffleId panelInputEmptyNone rfl).1 rfl
  · obtain ⟨w, hw⟩ :=
      (panel_empty_odors sampleTake shuffleId panelInputEmptyTrue rfl).2
        true rfl (by decide) rfl
    rw [hw]
    rfl

end OlfConfig

namespace OlfConfig

theorem add_balance_pins_length (pls : List (List ℕ)) (p2b : List (ℕ × ℕ)) :
    (add_balance_pins pls p2b).length = pls.length := by
  simp [add_balance_pins]

theorem panelCO2Rewire_pinlist_length {inp : PanelInput} {p2o : List (ℕ × Vial)}
    {pinlist : List (List ℕ)} {d : List (ℕ × Vial)} {pl : List (List ℕ)}
    (h : panelCO2Rewire inp p2o pinlist = some (d, pl)) :
    pl.length = pinlist.length := by
  rw [panelCO2Rewire] at h
  split at h
  · injection h with h
    injection h with h1 h2
    rw [← h2]
  · split at h
    · split at h
      · exact Option.noConfusion h
      · injection h with h
        injection h with h1 h2
        rw [← h2]
        simp
    · exact Option.noConfusion h
  · exact Option.noConfusion h

/-- C5 counterexample: the YAML integer `1` under
`randomize_presentation_order` is not a boolean, yet the scheduler does
not fail — Python's `1 in (True, False)` holds because `1 == True` — so
"anything else is fatal" is refuted. -/
theorem panel_randomize_nonbool_counterexample :
    panelInputInt1.randomize_presentation_order = some (PyVal.int 1) ∧
    isBoolVal (PyVal.int 1) = false ∧
    basic_plus_co2.make_config_dict sampleTake shuffleId panelInputInt1 ≠
      none := by decide

/-- C5 (amended): a present `randomize_presentation_order` value must equal
`True` or `False` under Python equality — booleans, or the numbers 1 and 0
— anything else is fatal, and the value's truth value is used with no
advisory; if absent with more than one odor it defaults to randomized with
a non-fatal advisory; if absent with exactly one odor it defaults to
non-randomized with no advisory, and with default `n_repeats` such a
single-odor panel yields exactly one trial. -/
theorem panel_randomize_flag_resolution (sample : List ℕ → ℕ → List ℕ)
    (shuffle : List ℕ → List ℕ) (inp : PanelInput)
    (hslen : (sample inp.available_valve_pins inp.odors.length).length =
      inp.odors.length) :
    (∀ v, inp.randomize_presentation_order = some v →
      pyEqBool v true = false → pyEqBool v false = false →
      basic_plus_co2.make_config_dict sample shuffle inp = none) ∧
    (∀ v, inp.randomize_presentation_order = some v →
      (pyEqBool v true || pyEqBool v false) = true →
      resolveRandomize inp.odors inp.randomize_presentation_order =
        some (pyTruthy v, [])) ∧
    (inp.randomize_presentation_order = none → 1 < inp.odors.length →
      resolveRandomize inp.odors inp.randomize_presentation_order =
        some (true, [warnDefaultRandomize]) ∧
      ∀ cfg, basic_plus_co2.make_config_dict sample shuffle inp = some cfg →
        warnDefaultRandomize ∈ cfg.warnings) ∧
    (inp.randomize_presentation_order = none → inp.odors.length = 1 →
      resolveRandomize inp.odors inp.randomize_presentation_order =
        some (false, []) ∧
      ∀ cfg, basic_plus_co2.make_config_dict sample shuffle inp = some cfg →
        cfg.warnings = [] ∧
        (inp.n_repeats = none → cfg.pinlist_at_each_trial.length = 1)) := by
  refine ⟨?_, ?_, ?_, ?_⟩
  · intro v hrand h1 h2
    have hres : resolveRandomize inp.odors inp.randomize_presentation_order =
        none := by
      simp [resolveRandomize, hrand, h1, h2]
    simp [basic_plus_co2.make_config_dict, hres]
  · intro v hrand hor
    simp [resolveRandomize, hrand, hor]
  · intro hrand hgt
    have hres : resolveRandomize inp.odors inp.randomize_presentation_order =
        some (true, [warnDefaultRandomize]) := by
      simp [resolveRandomize, hrand, hgt]
    refine ⟨hres, ?_⟩
    intro cfg hmk
    obtain ⟨hpool, randomize, w1, d, pl, hrand', hrw, hcfg⟩ :=
      make_panel_eq_some hmk
    rw [hres] at hrand'
    injection hrand' with hrand'
    injection hrand' with hb hw1
    rw [hcfg, ← hw1]
    simp
  · intro hrand hlen1
    have hres : resolveRandomize inp.odors inp.randomize_presentation_order =
        some (false, []) := by
      have : ¬ (1 < inp.odors.length) := by omega
      simp [resolveRandomize, hrand, hlen1, this]
    refine ⟨hres, ?_⟩
    intro cfg hmk
    obtain ⟨hpool, randomize, w1, d, pl, hrand', hrw, hcfg⟩ :=
      make_panel_eq_some hmk
    rw [hres] at hrand'
    injection hrand' with hrand'
    injection hrand' with hb hw1
    rw [← hb] at hrw hcfg
    constructor
    · rw [hcfg, ← hw1]
      cases hnr : inp.n_repeats <;> simp [resolveRepeats, hnr]
    · intro hnone
      have hlenpl : pl.length = 1 := by
        have h1 := panelCO2Rewire_pinlist_length hrw
        rw [panelPrePinlist, add_balance_pins_length] at h1
        rw [h1, resolveRepeats_fst, hnone]
        simp only [Option.getD_some, Option.getD_none, if_false,
          Bool.false_eq_true]
        rw [length_flatMap_replicate 1 (fun p => [p])]
        rw [hslen, hlen1]
      rw [hcfg]
      exact hlenpl

end OlfConfig

namespace OlfConfig

/-- C5 witness: a single-odor panel with the flag and `n_repeats` both
unspecified defaults to non-randomized, emits no advisory, and yields one
trial. -/
theorem panel_randomize_flag_resolution_witness :
    resolveRandomize panelInputSingle.odors
      panelInputSingle.randomize_presentation_order = some (false, []) ∧
    (⟨[(2, ⟨"A", some (-3)⟩)], [[2, 6]], []⟩ : PanelConfig).warnings = [] ∧
    (⟨[(2, ⟨"A", some (-3)⟩)], [[2, 6]], []⟩ :
      PanelConfig).pinlist_at_each_trial.length = 1 := by
  have h := (panel_randomize_flag_resolution sampleTake shuffleId
    panelInputSingle (by decide)).2.2.2 rfl (by decide)
  have h2 := h.2 ⟨[(2, ⟨"A", some (-3)⟩)], [[2, 6]], []⟩ make_panelInputSingle
  exact ⟨h.1, h2.1, h2.2 rfl⟩

end OlfConfig

namespace OlfConfig

/-- The trial pin list produced for a single odor pin after the
balance-pin merge. -/
def balanceTrialOf (p2b : List (ℕ × ℕ)) (p : ℕ) : List ℕ :=
  [p] ++ (([p] : List ℕ).filterMap (fun q => alookup q p2b)).dedup

theorem panelPrePinlist_eq (sample : List ℕ → ℕ → List ℕ)
    (shuffle : List ℕ → List ℕ) (inp : PanelInput) (randomize : Bool)
    (nr : ℕ) :
    panelPrePinlist sample shuffle inp randomize nr =
      (if randomize then
        shuffle (sample inp.available_valve_pins inp.odors.length)
       else sample inp.available_valve_pins inp.odors.length).flatMap
        (fun p => List.replicate nr (balanceTrialOf inp.pins2balances p)) := by
  unfold panelPrePinlist add_balance_pins balanceTrialOf
  exact map_flatMap_replicate nr (fun p => [p]) _ _

theorem mem_balanceTrialOf (p2b : List (ℕ × ℕ)) (p : ℕ) :
    p ∈ balanceTrialOf p2b p := by
  simp [balanceTrialOf]

theorem panelCO2Rewire_inv {inp : PanelInput} {p2o : List (ℕ × Vial)}
    {pinlist : List (List ℕ)} {d : List (ℕ × Vial)} {pl : List (List ℕ)}
    (h : panelCO2Rewire inp p2o pinlist = some (d, pl)) :
    (inp.odors.filter (fun o => o.name = "CO2") = [] ∧ d = p2o ∧ pl = pinlist) ∨
    (∃ co2_odor co2pin curr,
      inp.odors.filter (fun o => o.name = "CO2") = [co2_odor] ∧
      inp.co2_pin = some co2pin ∧
      (p2o.filter (fun kv => kv.2.name = "CO2")).map Prod.fst = [curr] ∧
      (∀ l ∈ pinlist, co2pin ∉ l) ∧
      d = dictInsert (dictInsert p2o curr airCO2MixVial) co2pin co2_odor ∧
      pl = pinlist.map (fun l => if curr ∈ l then l ++ [co2pin] else l)) := by
  rw [panelCO2Rewire] at h
  split at h
  · rename_i hfilter
    injection h with h
    injection h with h1 h2
    exact Or.inl ⟨by simpa using hfilter, h1.symm, h2.symm⟩
  · rename_i co2_odor co2pin hfilter hpin
    split at h
    · rename_i curr hcurr
      split at h
      · exact Option.noConfusion h
      · rename_i hany
        injection h with h
        injection h with h1 h2
        refine Or.inr ⟨co2_odor, co2pin, curr, by simpa using hfilter, hpin,
          hcurr, ?_, h1.symm, h2.symm⟩
        intro l hl hmem
        apply hany
        simp only [List.any_eq_true, decide_eq_true_eq]
        exact ⟨l, hl, hmem⟩
    · exact Option.noConfusion h
  · exact Option.noConfusion h

/-- C2: a successful panel run emits its trials as one block of
`n_repeats` consecutive identical trials per odor pin, over a list that is
one permutation (the single optional shuffle) of the sampled
distinct-odor pin list; the total count is `N * n_repeats` and each block's
trial contains its odor pin. -/
theorem panel_trial_run_structure {sample : List ℕ → ℕ → List ℕ}
    {shuffle : List ℕ → List ℕ} {inp : PanelInput} {cfg : PanelConfig}
    (hslen : (sample inp.available_valve_pins inp.odors.length).length =
      inp.odors.length)
    (hshuf : (shuffle (sample inp.available_valve_pins inp.odors.length)).Perm
      (sample inp.available_valve_pins inp.odors.length))
    (h : basic_plus_co2.make_config_dict sample shuffle inp = some cfg) :
    ∃ (randomize : Bool) (w1 : List String) (ps : List ℕ) (g : ℕ → List ℕ),
      resolveRandomize inp.odors inp.randomize_presentation_order =
        some (randomize, w1) ∧
      ps.Perm (sample inp.available_valve_pins inp.odors.length) ∧
      (randomize = false →
        ps = sample inp.available_valve_pins inp.odors.length) ∧
      (∀ p, p ∈ g p) ∧
      cfg.pinlist_at_each_trial =
        ps.flatMap (fun p => List.replicate (inp.n_repeats.getD 1) (g p)) ∧
      cfg.pinlist_at_each_trial.length =
        inp.odors.length * inp.n_repeats.getD 1 := by
  obtain ⟨hpool, randomize, w1, d, pl, hrand, hrw, hcfg⟩ := make_panel_eq_some h
  rw [resolveRepeats_fst] at hrw
  set ops := sample inp.available_valve_pins inp.odors.length with hops
  set tp := if randomize then shuffle ops else ops with htp
  have htperm : tp.Perm ops := by
    rw [htp]
    by_cases hb : randomize = true
    · rw [hb, if_pos rfl]
      exact hshuf
    · rw [if_neg hb]
  have htplen : tp.length = inp.odors.length := by
    rw [htperm.length_eq, hops, hslen]
  have hpre : panelPrePinlist sample shuffle inp randomize (inp.n_repeats.getD 1) =
      tp.flatMap (fun p => List.replicate (inp.n_repeats.getD 1)
        (balanceTrialOf inp.pins2balances p)) := by
    rw [panelPrePinlist_eq]
  rcases panelCO2Rewire_inv hrw with ⟨hfilter, hd, hpl⟩ |
    ⟨co2_odor, co2pin, curr, hfilter, hpin, hcurr, hnone, hd, hpl⟩
  · refine ⟨randomize, w1, tp, fun p => balanceTrialOf inp.pins2balances p,
      hrand, htperm, ?_, fun p => mem_balanceTrialOf _ p, ?_, ?_⟩
    · intro hb
      rw [htp, hb, if_neg (by simp)]
    · rw [hcfg]
      show pl = _
      rw [hpl, hpre]
    · rw [hcfg]
      show pl.length = _
      rw [hpl, hpre, length_flatMap_replicate, htplen]
  · refine ⟨randomize, w1, tp,
      fun p => if curr ∈ balanceTrialOf inp.pins2balances p then
        balanceTrialOf inp.pins2balances p ++ [co2pin]
      else balanceTrialOf inp.pins2balances p,
      hrand, htperm, ?_, ?_, ?_, ?_⟩
    · intro hb
      rw [htp, hb, if_neg (by simp)]
    · intro p
      show p ∈ (if curr ∈ balanceTrialOf inp.pins2balances p then
          balanceTrialOf inp.pins2balances p ++ [co2pin]
        else balanceTrialOf inp.pins2balances p)
      by_cases hc : curr ∈ balanceTrialOf inp.pins2balances p
      · rw [if_pos hc]
        exact List.mem_append_left _ (mem_balanceTrialOf _ p)
      · rw [if_neg hc]
        exact mem_balanceTrialOf _ p
    · rw [hcfg]
      show pl = _
      rw [hpl, hpre]
      exact map_flatMap_replicate _ _ _ tp
    · rw [hcfg]
      show pl.length = _
      rw [hpl, List.length_map, hpre, length_flatMap_replicate, htplen]

/-- C2 witness: the three-odor scenario panel yields 3 * 1 trials. -/
theorem panel_trial_run_structure_witness :
    panelCfgABC.pinlist_at_each_trial.length = 3 * 1 := by
  obtain ⟨randomize, w1, ps, g, hrand, hperm, hfalse, hmemg, hlist, hlen⟩ :=
    panel_trial_run_structure (by decide) (by decide) make_panelInputABC
  exact hlen

end OlfConfig

namespace OlfConfig

/-- C3: on a successful panel run with exactly one CO2 odor, the external
CO2 pin occurs in no pre-rewiring trial (the fatal check), after rewiring
a trial holds the CO2 pin exactly when it holds the former CO2-assignment
pin, and in the final map the former pin carries the compensation-air
entry, the CO2 pin carries the CO2 descriptor, and there are N+1 entries. -/
theorem panel_co2_rewire_properties {sample : List ℕ → ℕ → List ℕ}
    {shuffle : List ℕ → List ℕ} {inp : PanelInput} {cfg : PanelConfig}
    {co2_odor : Vial}
    (hslen : (sample inp.available_valve_pins inp.odors.length).length =
      inp.odors.length)
    (hsnodup : (sample inp.available_valve_pins inp.odors.length).Nodup)
    (hshuf : (shuffle (sample inp.available_valve_pins inp.odors.length)).Perm
      (sample inp.available_valve_pins inp.odors.length))
    (hfilter : inp.odors.filter (fun o => o.name = "CO2") = [co2_odor])
    (hnr : 1 ≤ inp.n_repeats.getD 1)
    (h : basic_plus_co2.make_config_dict sample shuffle inp = some cfg) :
    ∃ (randomize : Bool) (w1 : List String) (co2pin curr : ℕ),
      resolveRandomize inp.odors inp.randomize_presentation_order =
        some (randomize, w1) ∧
      inp.co2_pin = some co2pin ∧
      ((dictOfList ((sample inp.available_valve_pins inp.odors.length).zip
        inp.odors)).filter (fun kv => kv.2.name = "CO2")).map Prod.fst =
        [curr] ∧
      (∀ l ∈ panelPrePinlist sample shuffle inp randomize
        (inp.n_repeats.getD 1), co2pin ∉ l) ∧
      (∀ l ∈ cfg.pinlist_at_each_trial, (co2pin ∈ l ↔ curr ∈ l)) ∧
      alookup curr cfg.pins2odors = some airCO2MixVial ∧
      alookup co2pin cfg.pins2odors = some co2_odor ∧
      cfg.pins2odors.length = inp.odors.length + 1 := by
  obtain ⟨hpool, randomize, w1, d, pl, hrand, hrw, hcfg⟩ := make_panel_eq_some h
  rw [resolveRepeats_fst] at hrw
  set ops := sample inp.available_valve_pins inp.odors.length with hops
  have hzipkeys : keysOf (ops.zip inp.odors) = ops := by
    unfold keysOf
    exact List.map_fst_zip ops inp.odors (le_of_eq hslen)
  have hdict : dictOfList (ops.zip inp.odors) = ops.zip inp.odors :=
    dictOfList_nodup _ (by rw [hzipkeys]; exact hsnodup)
  rcases panelCO2Rewire_inv hrw with ⟨hfilt0, _, _⟩ |
    ⟨co2_odor', co2pin, curr, hfilt, hpin, hcurr, hnone, hd, hpl⟩
  · rw [hfilter] at hfilt0
    exact absurd hfilt0 (List.cons_ne_nil co2_odor [])
  · rw [hfilter] at hfilt
    injection hfilt with hod htl
    subst hod
    have hco2pin_not : co2pin ∉ ops := by
      intro hmem0
      have htpmem : co2pin ∈ (if randomize then shuffle ops else ops) := by
        by_cases hb : randomize = true
        · rw [hb, if_pos rfl]
          exact hshuf.mem_iff.mpr hmem0
        · rw [if_neg hb]
          exact hmem0
      have hl0 : balanceTrialOf inp.pins2balances co2pin ∈
          panelPrePinlist sample shuffle inp randomize (inp.n_repeats.getD 1) := by
        rw [panelPrePinlist_eq]
        exact List.mem_flatMap.mpr ⟨co2pin, htpmem,
          List.mem_replicate.mpr ⟨by omega, rfl⟩⟩
      exact hnone _ hl0 (mem_balanceTrialOf _ co2pin)
    have hcurr_mem : curr ∈ ops := by
      have h1 : curr ∈ ((dictOfList (ops.zip inp.odors)).filter
          (fun kv => kv.2.name = "CO2")).map Prod.fst := by
        rw [hcurr]
        exact List.mem_singleton.mpr rfl
      rcases List.mem_map.mp h1 with ⟨kv, hkvfil, hfst⟩
      have hkvzip : kv ∈ ops.zip inp.odors := by
        rw [← hdict]
        exact List.mem_of_mem_filter hkvfil
      have : kv.1 ∈ keysOf (ops.zip inp.odors) :=
        List.mem_map_of_mem Prod.fst hkvzip
      rw [hzipkeys] at this
      rw [← hfst]
      exact this
    have hne : curr ≠ co2pin := fun he => hco2pin_not (he ▸ hcurr_mem)
    refine ⟨randomize, w1, co2pin, curr, hrand, hpin, hcurr, hnone, ?_, ?_, ?_, ?_⟩
    · intro l' hl'
      rw [hcfg] at hl'
      rw [hpl] at hl'
      rcases List.mem_map.mp hl' with ⟨l, hlmem, heq⟩
      by_cases hc : curr ∈ l
      · rw [if_pos hc] at heq
        rw [← heq]
        have hco2l' : co2pin ∈ l ++ [co2pin] :=
          List.mem_append_right l (List.mem_singleton.mpr rfl)
        have hcl' : curr ∈ l ++ [co2pin] := List.mem_append_left _ hc
        exact ⟨fun _ => hcl', fun _ => hco2l'⟩
      · rw [if_neg hc] at heq
        rw [← heq]
        exact ⟨fun hh => absurd hh (hnone l hlmem),
          fun hh => absurd hh hc⟩
    · rw [hcfg]
      show alookup curr d = _
      rw [hd, alookup_dictInsert_ne _ co2pin curr co2_odor hne]
      exact alookup_dictInsert_self _ curr airCO2MixVial
    · rw [hcfg]
      show alookup co2pin d = _
      rw [hd]
      exact alookup_dictInsert_self _ co2pin co2_odor
    · rw [hcfg]
      show d.length = _
      have hlen0 : (dictOfList (ops.zip inp.odors)).length = inp.odors.length := by
        rw [hdict, List.length_zip, hslen]
        exact min_self _
      have hcurr_keys : curr ∈ keysOf (dictOfList (ops.zip inp.odors)) := by
        rw [hdict, hzipkeys]
        exact hcurr_mem
      have hco2_keys : co2pin ∉ keysOf (dictInsert (dictOfList (ops.zip inp.odors))
          curr airCO2MixVial) := by
        rw [keysOf_dictInsert_mem _ curr airCO2MixVial hcurr_keys, hdict, hzipkeys]
        exact hco2pin_not
      rw [hd, length_dictInsert_not_mem _ co2pin co2_odor hco2_keys,
        length_dictInsert_mem _ curr airCO2MixVial hcurr_keys, hlen0]

/-- C3 witness: on the A/B/CO2 scenario panel, pin 4 (formerly CO2's) now
carries the compensation-air entry, pin 5 carries the CO2 descriptor, and
the map has 3 + 1 entries. -/
theorem panel_co2_rewire_properties_witness :
    alookup 4 panelCfgABC.pins2odors = some airCO2MixVial ∧
    alookup 5 panelCfgABC.pins2odors = some ⟨"CO2", some 5⟩ ∧
    panelCfgABC.pins2odors.length = 3 + 1 := by
  obtain ⟨randomize, w1, co2pin, curr, hrand, hpin, hcurr, hnone, hiff, hair,
    hco2, hlen⟩ := @panel_co2_rewire_properties sampleTake shuffleId
    panelInputABC panelCfgABC ⟨"CO2", some 5⟩ (by decide) (by decide)
    (by decide) (by decide) (by decide) make_panelInputABC
  have hpinv : co2pin = 5 := by
    have h5 : panelInputABC.co2_pin = some 5 := by decide
    rw [h5] at hpin
    injection hpin with hpin
    exact hpin.symm
  have hcurrv : curr = 4 := by
    have h4 : ((dictOfList ((sampleTake panelInputABC.available_valve_pins
        panelInputABC.odors.length).zip panelInputABC.odors)).filter
        (fun kv => kv.2.name = "CO2")).map Prod.fst = [4] := by decide
    rw [h4] at hcurr
    injection hcurr with hh ht
    exact hh.symm
  subst hpinv hcurrv
  exact ⟨hair, hco2, hlen⟩

end OlfConfig
